import Mathlib

/-!
Verification of the recursive type extractor in benmoss/package-rewriter.

The development shallowly embeds the core of the Go implementation
(`RewriteRecursive` and its helpers): the import resolver
(`collectSourceImports`), the dependency walker (`walkTypeForDeps`),
the work-list driver, the output emitter (`generateOutput` /
`generateModuleFiles`) and the go.mod replace management, and proves
the testable properties claimed by the specification against it.
-/

namespace PackageRewriter

/-! ### String helpers mirroring Go's strings and path/filepath functions -/

/-- Boolean substring containment on character lists: does the needle occur
contiguously inside the haystack (mirrors Go strings.Contains). -/
def listContainsSub (hay needle : List Char) : Bool :=
  needle.isPrefixOf hay ||
    match hay with
    | [] => false
    | _ :: t => listContainsSub t needle

/-- Go strings.Contains. The empty needle is contained in everything. -/
def strContains (hay needle : String) : Bool :=
  needle.data.isEmpty || listContainsSub hay.data needle.data

/-- Number of occurrences of a character (Go strings.Count with a
one-character pattern). -/
def strCountChar (s : String) (c : Char) : Nat :=
  s.data.count c

/-- Go strings.Trim with a one-character cutset: removes all leading and
trailing occurrences of the character. -/
def trimChar (s : String) (c : Char) : String :=
  ⟨((s.data.dropWhile (· = c)).reverse.dropWhile (· = c)).reverse⟩

/-- Splitting a character list at every occurrence of a separator
character (the recursion behind Go strings.Split). -/
def splitCharAux (sep : Char) : List Char → List (List Char)
  | [] => [[]]
  | c :: rest =>
    if c = sep then [] :: splitCharAux sep rest
    else
      match splitCharAux sep rest with
      | [] => [[c]]
      | h :: t => (c :: h) :: t

/-- Go strings.Split for a one-character separator. -/
def goSplit (s : String) (sep : String) : List String :=
  match sep.data with
  | [sc] => (splitCharAux sc s.data).map (fun l => ⟨l⟩)
  | _ => [s]

/-- Go strings.Join with the "_" separator. -/
def joinUnderscore : List String → String
  | [] => ""
  | [x] => x
  | x :: xs => x ++ "_" ++ joinUnderscore xs

/-- Go filepath.Base: the last element of the path, after removing
trailing slashes; "." for the empty path and "/" for a root path. -/
def goBase (p : String) : String :=
  if p.data.isEmpty then "."
  else
    let stripped := p.data.reverse.dropWhile (· = '/')
    if stripped.isEmpty then "/"
    else ⟨(stripped.takeWhile (· ≠ '/')).reverse⟩

/-- Go strings.HasSuffix. -/
def strHasSuffix (s suffix : String) : Bool :=
  suffix.data.isSuffixOf s.data

/-- Go strings.HasPrefix. -/
def strHasPrefix (s pre : String) : Bool :=
  pre.data.isPrefixOf s.data

/-- `RecursiveRewriter.isStdlib`: a package path is treated as standard
library exactly when it contains no '.' (no domain-like qualifier). -/
def isStdlib (pkgPath : String) : Bool :=
  !(strContains pkgPath ".")

/-! ### Import collection (`collectSourceImports`) -/

/-- One `ast.ImportSpec`: an optional explicit alias and the import path
(already unquoted). -/
structure ImportSpec where
  name : Option String
  path : String
deriving DecidableEq, Repr

/-- Association-list lookup, mirroring a Go map read. -/
def assocFind {α : Type} (l : List (String × α)) (k : String) : Option α :=
  (l.find? (fun x => x.1 == k)).map (·.2)

/-- Association-list write, mirroring a Go map assignment: replaces the
value at the key if present, otherwise appends the binding. -/
def assocSet {α : Type} (l : List (String × α)) (k : String) (v : α) :
    List (String × α) :=
  if (l.find? (fun x => x.1 == k)).isSome then
    l.map (fun x => if x.1 == k then (k, v) else x)
  else l ++ [(k, v)]

/-- The pattern the mangled-alias detector searches for: the trimmed
path's segments joined by underscores, with '.' and '-' also replaced
by '_'. -/
def mangledPattern (pathParts : List String) : String :=
  ⟨(joinUnderscore pathParts).data.map
    (fun c => if c = '.' then '_' else if c = '-' then '_' else c)⟩

/-- The code's mangled-alias heuristic from `collectSourceImports`: only
paths with at least 3 segments are examined; the alias is mangled if it
contains the underscore-joined segments, or contains at least two
underscores. -/
def isMangledAlias (path al : String) : Bool :=
  let pathParts := goSplit (trimChar path '/') "/"
  if 3 ≤ pathParts.length then
    let pat := mangledPattern pathParts
    strContains al pat ||
      (decide (3 ≤ pathParts.length) && decide (2 ≤ strCountChar al '_'))
  else false

/-- The mangled-alias heuristic exactly as the claim words it: the alias
contains the path's segments joined by underscores, or contains at least
2 underscores while the path has at least 3 segments.  (Stated from the
spec's words, for comparison against `isMangledAlias` from the code.) -/
def specMangledHeuristic (path al : String) : Bool :=
  let pathParts := goSplit (trimChar path '/') "/"
  strContains al (joinUnderscore pathParts) ||
    (decide (2 ≤ strCountChar al '_') && decide (3 ≤ pathParts.length))

/-- The two maps produced by import collection: `sourceImports` maps
each import path to every alias recorded for it, `nameToPath` is the
reverse alias-to-path lookup. -/
structure ImportMaps where
  sourceImports : List (String × List String)
  nameToPath : List (String × String)
deriving DecidableEq, Repr

/-- The recording tail of `collectSourceImports` for one import, after
the mangled check: add the name to SourceImports if new, and update the
reverse map (an explicit alias wins a name conflict, an inferred name
does not overwrite). -/
def recordImport (m : ImportMaps) (path pkgName : String)
    (hasExplicitAlias : Bool) : ImportMaps :=
  let existing := (assocFind m.sourceImports path).getD []
  if pkgName ∈ existing then m
  else
    { sourceImports := assocSet m.sourceImports path (existing ++ [pkgName])
      nameToPath :=
        match assocFind m.nameToPath pkgName with
        | some _ =>
          if hasExplicitAlias then assocSet m.nameToPath pkgName path
          else m.nameToPath
        | none => m.nameToPath ++ [(pkgName, path)] }

/-- `collectSourceImports`, one import spec: an explicit alias is checked
against the mangled heuristic and skipped entirely when it matches;
otherwise the alias (or the path's base name) is recorded. -/
def processImportSpec (m : ImportMaps) (imp : ImportSpec) : ImportMaps :=
  match imp.name with
  | some al =>
    if isMangledAlias imp.path al then m
    else recordImport m imp.path al true
  | none => recordImport m imp.path (goBase imp.path) false

/-- `collectSourceImports` over all import specs of a package's files. -/
def collectSourceImports (imps : List ImportSpec) : ImportMaps :=
  imps.foldl processImportSpec ⟨[], []⟩

/-! ### The type-expression syntax walked by `walkTypeForDeps` -/

/-- The closed set of Go type-expression shapes the walker dispatches on:
identifiers, pointers, arrays/slices, maps, struct literals, qualified
selectors, interfaces, function signatures, channels and variadic
ellipses.  Anything else is a leaf in the Go code as well. -/
inductive TypeExpr where
  | ident (name : String)
  | star (x : TypeExpr)
  | array (elt : TypeExpr)
  | mapT (key value : TypeExpr)
  | structT (fields : List TypeExpr)
  | selector (pkgName sel : String)
  | interfaceT (methods : List TypeExpr)
  | funcT (params results : List TypeExpr)
  | chanT (value : TypeExpr)
  | ellipsis (elt : TypeExpr)

/-- One loaded source package, as the package loader exposes it to the
rewriter: its name, owning module, the package-scope type declarations
(name and right-hand-side expression), the import specs of its files,
and the loader's import graph entries (path and declared package name,
mirroring `pkg.Imports`). -/
structure SrcPackage where
  pkgName : String
  modulePath : String
  typeDecls : List (String × TypeExpr)
  fileImports : List ImportSpec
  loaderImports : List (String × String)

/-- The universe of loadable packages, keyed by package path.  A path
absent from the world fails to load. -/
abbrev World := List (String × SrcPackage)

/-- `TypeRef`: a (package path, type name) pair. -/
structure TypeRef where
  packagePath : String
  typeName : String
deriving DecidableEq, Repr

/-- `TypeRef.String()`, the key used for the processed-set and the
queue-membership checks. -/
def trKey (tr : TypeRef) : String :=
  tr.packagePath ++ "." ++ tr.typeName

/-- Membership in a string-keyed set of references (the Go
`map[string]bool` keyed by `TypeRef.String()`). -/
def trKeyMem (l : List TypeRef) (tr : TypeRef) : Bool :=
  l.any (fun x => trKey x == trKey tr)

/-- `PackageInfo`: the per-package record.  The first six fields are
fixed at load time; `decls` and `imports` grow during extraction. -/
structure PkgInfo where
  pkgName : String
  modulePath : String
  typeDecls : List (String × TypeExpr)
  nameToPath : List (String × String)
  sourceImports : List (String × List String)
  loaderImports : List (String × String)
  decls : List (String × TypeExpr)
  imports : List (String × String)

/-- The driver's mutable state: the package registry, the pending queue,
the processed-set and the module registry. -/
structure RState where
  packages : List (String × PkgInfo)
  pendingTypes : List TypeRef
  processedTypes : List TypeRef
  modules : List (String × List String)

/-- The load-time part of a `PackageInfo`, built by `loadPackageInfo`
from the loaded package (imports collected by `collectSourceImports`). -/
def mkPkgInfo (src : SrcPackage) : PkgInfo :=
  let m := collectSourceImports src.fileImports
  { pkgName := src.pkgName
    modulePath := src.modulePath
    typeDecls := src.typeDecls
    nameToPath := m.nameToPath
    sourceImports := m.sourceImports
    loaderImports := src.loaderImports
    decls := []
    imports := [] }

/-- The rewriter's error outcomes. -/
inductive RewriteError where
  | loadFailed (pkgPath : String)
  | typeNotFound (typeName pkgPath : String)
  | outOfFuel
deriving DecidableEq, Repr

/-- `loadPackageInfo`: return the cached record, or load the package,
register it under its module, collect its source imports and cache it. -/
def loadPackageInfo (world : World) (st : RState) (pkgPath : String) :
    Except RewriteError (PkgInfo × RState) :=
  match assocFind st.packages pkgPath with
  | some pi => .ok (pi, st)
  | none =>
    match assocFind world pkgPath with
    | none => .error (.loadFailed pkgPath)
    | some src =>
      let pi := mkPkgInfo src
      let modules :=
        match assocFind st.modules src.modulePath with
        | some pkgs => assocSet st.modules src.modulePath (pkgs ++ [pkgPath])
        | none => st.modules ++ [(src.modulePath, [pkgPath])]
      .ok (pi, { st with
                  packages := st.packages ++ [(pkgPath, pi)]
                  modules := modules })

/-- `queueType`: skip a reference that is already processed or already in
the queue, otherwise append it. -/
def queueType (processed : List TypeRef) (pending : List TypeRef)
    (pkgPath typeName : String) : List TypeRef :=
  let typeRef : TypeRef := ⟨pkgPath, typeName⟩
  if trKeyMem processed typeRef then pending
  else if pending.any (fun p => trKey p == trKey typeRef) then pending
  else pending ++ [typeRef]

/-- The read-only context of one `walkTypeForDeps` call: the walked
package's path, its package-scope type names, its alias maps and the
loader import graph, plus the processed-set consulted by `queueType`. -/
structure WalkEnv where
  pkgPath : String
  scopeTypes : List String
  nameToPath : List (String × String)
  loaderImports : List (String × String)
  processed : List TypeRef

/-- The state mutated by one walk: the driver's pending queue and the
walked package's used-import map. -/
structure WalkSt where
  pendingTypes : List TypeRef
  imports : List (String × String)

/-- The loader-import fallback of the selector case: the first imported
package whose declared name matches (mirrors the range over
`pkgInfo.Pkg.Imports`). -/
def lookupLoaderName (loader : List (String × String)) (pkgName : String) :
    Option String :=
  (loader.find? (fun x => x.2 == pkgName)).map (·.1)

/-- Name resolution of a selector's qualifier as `walkTypeForDeps`
performs it: the `NameToPath` reverse map first, then the loader import
graph, then the package's already-recorded used imports. -/
def resolveExternalPath (env : WalkEnv) (imports : List (String × String))
    (pkgName : String) : Option String :=
  match assocFind env.nameToPath pkgName with
  | some p => some p
  | none =>
    match lookupLoaderName env.loaderImports pkgName with
    | some p => some p
    | none => (imports.find? (fun x => x.2 == pkgName)).map (·.1)

mutual

/-- `walkTypeForDeps`: the recursive switch over type-expression shapes.
A bare identifier naming a package-scope type queues a same-package
reference; a selector resolves its qualifier and queues a cross-package
reference while recording the used import; the remaining shapes recurse
into their constituent type expressions. -/
def walkTypeForDeps (env : WalkEnv) : TypeExpr → WalkSt → WalkSt
  | .ident n, s =>
    if n ∈ env.scopeTypes then
      { s with pendingTypes := queueType env.processed s.pendingTypes env.pkgPath n }
    else s
  | .star x, s => walkTypeForDeps env x s
  | .array elt, s => walkTypeForDeps env elt s
  | .mapT k v, s => walkTypeForDeps env v (walkTypeForDeps env k s)
  | .structT fields, s => walkFieldList env fields s
  | .selector x sel, s =>
    match resolveExternalPath env s.imports x with
    | some externalPkgPath =>
      { pendingTypes := queueType env.processed s.pendingTypes externalPkgPath sel
        imports := assocSet s.imports externalPkgPath x }
    | none => s
  | .interfaceT methods, s => walkFieldList env methods s
  | .funcT params results, s => walkFieldList env results (walkFieldList env params s)
  | .chanT v, s => walkTypeForDeps env v s
  | .ellipsis elt, s => walkTypeForDeps env elt s

/-- Walking the field list of a struct, interface or signature in source
order. -/
def walkFieldList (env : WalkEnv) : List TypeExpr → WalkSt → WalkSt
  | [], s => s
  | f :: fs, s => walkFieldList env fs (walkTypeForDeps env f s)

end

/-! ### The reference events of a type expression

`exprEvents` lists, in traversal order, the base cases the walker hits:
bare identifiers and selector expressions.  `walkTypeForDeps` is later
proved equal to folding one step per event, which turns every question
about the walker into a question about a flat list. -/

/-- A base case hit during a walk: a bare identifier, or a qualified
selector. -/
inductive RefEvent where
  | localRef (name : String)
  | selRef (pkgName sel : String)
deriving DecidableEq, Repr

mutual

/-- The identifiers and selectors of a type expression, in the order
`walkTypeForDeps` reaches them. -/
def exprEvents : TypeExpr → List RefEvent
  | .ident n => [.localRef n]
  | .star x => exprEvents x
  | .array elt => exprEvents elt
  | .mapT k v => exprEvents k ++ exprEvents v
  | .structT fields => fieldListEvents fields
  | .selector x sel => [.selRef x sel]
  | .interfaceT methods => fieldListEvents methods
  | .funcT params results => fieldListEvents params ++ fieldListEvents results
  | .chanT v => exprEvents v
  | .ellipsis elt => exprEvents elt

/-- The events of a field list, in order. -/
def fieldListEvents : List TypeExpr → List RefEvent
  | [] => []
  | f :: fs => exprEvents f ++ fieldListEvents fs

end

/-- Pure name resolution of a selector qualifier, using only the
load-time maps (the reverse alias map, then the loader's import graph).
The walker's third fallback through the used-import map is proved
redundant separately. -/
def resolvePure (env : WalkEnv) (pkgName : String) : Option String :=
  match assocFind env.nameToPath pkgName with
  | some p => some p
  | none => lookupLoaderName env.loaderImports pkgName

/-- The reference a single event queues, if any: an identifier names a
package-scope type of the current package, a selector resolves through
the alias maps. -/
def eventRef (env : WalkEnv) : RefEvent → Option TypeRef
  | .localRef n => if n ∈ env.scopeTypes then some ⟨env.pkgPath, n⟩ else none
  | .selRef x sel => (resolvePure env x).map (fun q => ⟨q, sel⟩)

/-- One walker step on the full walk state. -/
def stepRefEvent (env : WalkEnv) (s : WalkSt) : RefEvent → WalkSt
  | .localRef n =>
    if n ∈ env.scopeTypes then
      { s with pendingTypes := queueType env.processed s.pendingTypes env.pkgPath n }
    else s
  | .selRef x sel =>
    match resolveExternalPath env s.imports x with
    | some externalPkgPath =>
      { pendingTypes := queueType env.processed s.pendingTypes externalPkgPath sel
        imports := assocSet s.imports externalPkgPath x }
    | none => s

/-- One walker step on the pending queue alone, via `eventRef`. -/
def queueStep (env : WalkEnv) (pd : List TypeRef) (ev : RefEvent) :
    List TypeRef :=
  match eventRef env ev with
  | some r => queueType env.processed pd r.packagePath r.typeName
  | none => pd

/-- The pending queue after a sequence of events. -/
def queueEvents (env : WalkEnv) (evs : List RefEvent) (pd : List TypeRef) :
    List TypeRef :=
  evs.foldl (queueStep env) pd

/-! ### The driver (`RewriteRecursive`'s work-list loop) -/

/-- `collectTypeDecl`: record a declaration once; re-discovery is a
no-op. -/
def collectTypeDecl (pi : PkgInfo) (name : String) (e : TypeExpr) : PkgInfo :=
  if (pi.decls.find? (fun d => d.1 == name)).isSome then pi
  else { pi with decls := pi.decls ++ [(name, e)] }

/-- The walk context of a loaded package record. -/
def mkWalkEnv (pkgPath : String) (pi : PkgInfo) (processed : List TypeRef) :
    WalkEnv :=
  { pkgPath := pkgPath
    scopeTypes := pi.typeDecls.map (·.1)
    nameToPath := pi.nameToPath
    loaderImports := pi.loaderImports
    processed := processed }

/-- `extractType`: load the owning package, locate the named type
declaration, record it, and walk its right-hand side for dependencies;
fail with a type-not-found error when the name is absent. -/
def extractType (world : World) (st : RState) (typeRef : TypeRef) :
    Except RewriteError RState :=
  match loadPackageInfo world st typeRef.packagePath with
  | .error e => .error e
  | .ok (pi, st₁) =>
    match pi.typeDecls.find? (fun d => d.1 == typeRef.typeName) with
    | none => .error (.typeNotFound typeRef.typeName typeRef.packagePath)
    | some d =>
      let pi₁ := collectTypeDecl pi d.1 d.2
      let env := mkWalkEnv typeRef.packagePath pi₁ st₁.processedTypes
      let ws : WalkSt := ⟨st₁.pendingTypes, pi₁.imports⟩
      let ws₁ := walkTypeForDeps env d.2 ws
      .ok { st₁ with
              pendingTypes := ws₁.pendingTypes
              packages := assocSet st₁.packages typeRef.packagePath
                { pi₁ with imports := ws₁.imports } }

/-- The outcome of one iteration of the work-list loop. -/
inductive StepResult where
  | done (st : RState)
  | next (st : RState)
  | fail (e : RewriteError)

/-- One iteration of `RewriteRecursive`'s loop: pop the front reference;
skip it if already processed; mark it processed without extraction if
its package is standard-library; otherwise extract it and mark it
processed. -/
def driverStep (world : World) (st : RState) : StepResult :=
  match st.pendingTypes with
  | [] => .done st
  | typeRef :: rest =>
    if trKeyMem st.processedTypes typeRef then
      .next { st with pendingTypes := rest }
    else if isStdlib typeRef.packagePath then
      .next { st with pendingTypes := rest
                      processedTypes := st.processedTypes ++ [typeRef] }
    else
      match extractType world { st with pendingTypes := rest } typeRef with
      | .error e => .fail e
      | .ok st₂ =>
        .next { st₂ with processedTypes := st₂.processedTypes ++ [typeRef] }

/-- The work-list loop, with explicit fuel standing in for the Go
while-loop. -/
def runLoop (world : World) : Nat → RState → Except RewriteError RState
  | 0, _ => .error .outOfFuel
  | fuel + 1, st =>
    match driverStep world st with
    | .done st₁ => .ok st₁
    | .next st₁ => runLoop world fuel st₁
    | .fail e => .error e

/-- The rewriter's configuration: the requested package, type and output
directory. -/
structure RConfig where
  packagePath : String
  typeName : String
  outputDir : String
deriving DecidableEq, Repr

/-- The requested root reference of a configuration. -/
def rootRef (cfg : RConfig) : TypeRef :=
  ⟨cfg.packagePath, cfg.typeName⟩

/-- The driver state `RewriteRecursive` starts from: everything empty,
the requested type seeded into the queue. -/
def initState (cfg : RConfig) : RState :=
  { packages := []
    pendingTypes := [rootRef cfg]
    processedTypes := []
    modules := [] }

/-! ### The reference graph of a world

The edge relation is read off the same definitions the walker runs on:
the successors of a type are the references its declaration's events
resolve to. -/

/-- The walk context a package would be loaded with. -/
def srcWalkEnv (p : String) (src : SrcPackage) : WalkEnv :=
  mkWalkEnv p (mkPkgInfo src) []

/-- The declared right-hand side of a named type in a package. -/
def declExprOf (src : SrcPackage) (n : String) : Option TypeExpr :=
  (src.typeDecls.find? (fun d => d.1 == n)).map (·.2)

/-- The references the extraction of one type discovers: the resolved
events of its declaration. -/
def succRefs (world : World) (tr : TypeRef) : List TypeRef :=
  match assocFind world tr.packagePath with
  | none => []
  | some src =>
    match declExprOf src tr.typeName with
    | none => []
    | some e => (exprEvents e).filterMap (eventRef (srcWalkEnv tr.packagePath src))

/-- A type-reference edge as the specification describes it: the target
is discovered by walking the source's declaration. -/
def SpecEdge (world : World) (tr tr' : TypeRef) : Prop :=
  tr' ∈ succRefs world tr

/-- The edge the running driver can actually follow: it only ever
expands non-standard-library references. -/
def RunEdge (world : World) (tr tr' : TypeRef) : Prop :=
  isStdlib tr.packagePath = false ∧ tr' ∈ succRefs world tr

/-- Transitive reachability along specification edges. -/
def ReachableSpec (world : World) (root tr : TypeRef) : Prop :=
  Relation.ReflTransGen (SpecEdge world) root tr

/-- Transitive reachability along driver edges. -/
def ReachableRun (world : World) (root tr : TypeRef) : Prop :=
  Relation.ReflTransGen (RunEdge world) root tr

/-- Whether a reference's declaration has been recorded in the driver
state. -/
def hasDeclB (st : RState) (tr : TypeRef) : Bool :=
  match assocFind st.packages tr.packagePath with
  | some pi => (pi.decls.find? (fun d => d.1 == tr.typeName)).isSome
  | none => false

/-- How many times a name occurs in its package's recorded declaration
list (the emitted declaration multiplicity). -/
def declCount (st : RState) (tr : TypeRef) : Nat :=
  match assocFind st.packages tr.packagePath with
  | some pi => (pi.decls.map (·.1)).count tr.typeName
  | none => 0

/-! ### Output generation (`generateOutput`, `generateModuleFiles`)

Go iterates its maps in an unspecified, run-randomized order, so the
emitters take the iteration orders as explicit arguments; a concrete
run fixes them to permutations of the map keys. -/

/-- The content of one generated types.go file, as structured data.  Two
files are byte-identical exactly when these records are equal, since the
rendering of each component is fixed. -/
structure GeneratedFile where
  dirPath : String
  pkgName : String
  header : String
  importSpecs : List (String × Option String)
  decls : List (String × TypeExpr)

/-- The declaration names of a generated file, in emitted order. -/
def fileDeclNames (f : GeneratedFile) : List String :=
  f.decls.map (·.1)

/-- The import paths of a generated file, in emitted order. -/
def fileImportPaths (f : GeneratedFile) : List String :=
  f.importSpecs.map (·.1)

/-- Emission of one package's types.go: the header names the source
package; an import is kept only when its path was extracted or is
standard-library, and carries an explicit name only when the name
differs from the path's base and the path does not end in "/name"; the
declarations are appended in map-iteration order. -/
def emitPackageFile (cfg : RConfig) (packagesDom : List String)
    (p : String) (pi : PkgInfo)
    (importOrder declOrder : List String) : GeneratedFile :=
  { dirPath := cfg.outputDir ++ "/" ++ p
    pkgName := pi.pkgName
    header := "// Code generated by package-rewriter. DO NOT EDIT.\n// Source: "
      ++ p ++ "\n"
    importSpecs := importOrder.filterMap (fun path =>
      match assocFind pi.imports path with
      | none => none
      | some name =>
        if packagesDom.contains path || isStdlib path then
          some (path,
            if name == goBase path || strHasSuffix path ("/" ++ name) then none
            else some name)
        else none)
    decls := declOrder.filterMap (fun n =>
      (pi.decls.find? (fun d => d.1 == n)).map (fun d => (n, d.2))) }

/-- `generateOutput` with the canonical (insertion-order) iteration:
one file per package with at least one recorded declaration. -/
def generateOutputCanonical (cfg : RConfig) (st : RState) :
    List GeneratedFile :=
  st.packages.filterMap (fun x =>
    if x.2.decls.isEmpty then none
    else some (emitPackageFile cfg (st.packages.map (·.1)) x.1 x.2
      (x.2.imports.map (·.1)) (x.2.decls.map (·.1))))

/-- `generateModuleFiles`: one minimal go.mod per non-standard-library
module owning at least one package with declarations. -/
def generateModuleFiles (cfg : RConfig) (st : RState) :
    List (String × String) :=
  st.modules.filterMap (fun m =>
    if isStdlib m.1 then none
    else if m.2.any (fun p =>
        match assocFind st.packages p with
        | some pi => !pi.decls.isEmpty
        | none => false) then
      some (cfg.outputDir ++ "/" ++ m.1 ++ "/go.mod",
        "module " ++ m.1 ++ "\n\ngo 1.21\n")
    else none)

/-- The modules that received generated code, as `updateGoModReplaces`
computes them. -/
def modulesWithDecls (st : RState) : List String :=
  st.modules.filterMap (fun m =>
    if isStdlib m.1 then none
    else if m.2.any (fun p =>
        match assocFind st.packages p with
        | some pi => !pi.decls.isEmpty
        | none => false) then some m.1
    else none)

/-- The local path of a module's generated copy in a replace directive
("./"-prefixed when not absolute and not already dot-prefixed). -/
def replaceTargetPath (cfg : RConfig) (modulePath : String) : String :=
  let rel := cfg.outputDir ++ "/" ++ modulePath
  if strHasPrefix rel "/" || strHasPrefix rel "." then rel
  else "./" ++ rel

/-! ### The full run (`RewriteRecursive` with go.mod management) -/

/-- The observable writes of a run: go.mod saves (with the replace list
written), generated module manifests, and generated types files. -/
inductive Effect where
  | goModSave (replaces : List (String × String))
  | moduleManifest (path content : String)
  | typesFile (f : GeneratedFile)

/-- Whether an effect is an output file (a types file or a module
manifest) rather than a go.mod save. -/
def isOutputEffect : Effect → Bool
  | .goModSave _ => false
  | .moduleManifest _ _ => true
  | .typesFile _ => true

/-- The consumer's go.mod as found at startup: missing, unparsable, or
parsed with its replace directives. -/
inductive GoModEnv where
  | notFound
  | parseFailed
  | parsed (replaces : List (String × String))

/-- `RewriteRecursive` end to end: strip and save the consumer's replace
directives up front (when go.mod parsed and had any), run the work-list
loop, and only on success emit module manifests and types files and
re-save go.mod with one replace per generated module. -/
def rewriteRecursive (world : World) (gm : GoModEnv) (cfg : RConfig)
    (fuel : Nat) : Except RewriteError Unit × List Effect :=
  let seeded :=
    match gm with
    | .notFound => (none, ([] : List Effect))
    | .parseFailed => (none, [])
    | .parsed replaces =>
      if 0 < replaces.length then (some ([] : List (String × String)), [.goModSave []])
      else (some replaces, [])
  match runLoop world fuel (initState cfg) with
  | .error e => (.error e, seeded.2)
  | .ok st =>
    let modEffs := (generateModuleFiles cfg st).map
      (fun mf => Effect.moduleManifest mf.1 mf.2)
    let fileEffs := (generateOutputCanonical cfg st).map Effect.typesFile
    match seeded.1 with
    | none => (.ok (), seeded.2 ++ modEffs ++ fileEffs)
    | some reps =>
      let adds := (modulesWithDecls st).map
        (fun m => (m, replaceTargetPath cfg m))
      (.ok (), seeded.2 ++ modEffs ++ fileEffs ++ [.goModSave (reps ++ adds)])

/-! ### Well-formedness of a world

Go type names are identifiers and contain no '.', which makes the
string key `path ++ "." ++ name` of the processed-set injective on the
references the driver handles. -/

/-- A legal Go type name: no '.' occurs in it. -/
def NameOk (n : String) : Prop := '.' ∉ n.data

/-- The name a selector event would queue is a legal type name. -/
def eventNameOk : RefEvent → Prop
  | .localRef _ => True
  | .selRef _ sel => NameOk sel

/-- Well-formedness of a world and a requested root: every declared
type name and every selector field name is a legal Go identifier
(dot-free). -/
structure WFWorld (world : World) (root : TypeRef) : Prop where
  rootOk : NameOk root.typeName
  declOk : ∀ p src, assocFind world p = some src →
    ∀ d ∈ src.typeDecls, NameOk d.1
  evOk : ∀ p src, assocFind world p = some src →
    ∀ d ∈ src.typeDecls, ∀ ev ∈ exprEvents d.2, eventNameOk ev

/-- Every non-standard-library reference reachable from the root names a
type that exists in its (loadable) package: the closure is complete in
the world, so no load or lookup fails. -/
def ResolvesAll (world : World) (root : TypeRef) : Prop :=
  ∀ tr, ReachableRun world root tr → isStdlib tr.packagePath = false →
    ∃ src, assocFind world tr.packagePath = some src ∧
      (declExprOf src tr.typeName).isSome

/-- The reference graph is acyclic: no type reaches itself through one
or more reference edges. -/
def Acyclic (world : World) : Prop :=
  ∀ tr, ¬ Relation.TransGen (SpecEdge world) tr tr

/-- Standard-library packages only reference standard-library types
(true of Go's standard library, which cannot import third-party code). -/
def StdlibClosed (world : World) : Prop :=
  ∀ tr tr', SpecEdge world tr tr' → isStdlib tr.packagePath = true →
    isStdlib tr'.packagePath = true

/-- The load-time part of a package record agrees with its source
package. -/
def StaticEq (pi : PkgInfo) (src : SrcPackage) : Prop :=
  pi.pkgName = src.pkgName ∧ pi.modulePath = src.modulePath ∧
  pi.typeDecls = src.typeDecls ∧
  pi.nameToPath = (collectSourceImports src.fileImports).nameToPath ∧
  pi.sourceImports = (collectSourceImports src.fileImports).sourceImports ∧
  pi.loaderImports = src.loaderImports

/-- Every recorded used import resolves through the load-time maps (the
walker's third fallback never contributes anything new). -/
def ImportsWf (env : WalkEnv) (imports : List (String × String)) : Prop :=
  ∀ pr ∈ imports, resolvePure env pr.2 = some pr.1

/-! ### The finite reference universe and the loop's fuel bound -/

/-- Every reference one package's declarations can queue. -/
def pkgRefs (p : String) (src : SrcPackage) : List TypeRef :=
  src.typeDecls.foldr (fun d acc =>
    (exprEvents d.2).filterMap (eventRef (srcWalkEnv p src)) ++ acc) []

/-- Every reference a run can ever queue: the root plus every reference
any declaration of any package can discover. -/
def worldRefs (world : World) (root : TypeRef) : List TypeRef :=
  root :: world.foldr (fun e acc => pkgRefs e.1 e.2 ++ acc) []

/-- The distinct keys of the reference universe. -/
def refUniverse (world : World) (root : TypeRef) : List String :=
  ((worldRefs world root).map trKey).dedup

/-- How many universe keys are not yet processed. -/
def unprocessedCount (world : World) (root : TypeRef) (st : RState) : Nat :=
  ((refUniverse world root).filter
    (fun k => !(st.processedTypes.any (fun x => trKey x == k)))).length

/-- The loop's termination measure: every iteration strictly decreases
it. -/
def stMeasure (world : World) (root : TypeRef) (st : RState) : Nat :=
  st.pendingTypes.length +
    unprocessedCount world root st * (2 + (refUniverse world root).length)

/-- Fuel sufficient to drain the queue from the initial state. -/
def loopFuel (world : World) (root : TypeRef) : Nat :=
  2 + (refUniverse world root).length * (2 + (refUniverse world root).length)

/-- The states the driver can step through from a start state (the
reflexive-transitive closure of `driverStep`'s continue outcome). -/
inductive Steps (world : World) : RState → RState → Prop where
  | refl (st : RState) : Steps world st st
  | tail {st st₁ st₂ : RState} : Steps world st st₁ →
      driverStep world st₁ = .next st₂ → Steps world st st₂

/-- A key is visible in the driver state: in the pending queue or in the
processed-set.  The set of visible keys only grows. -/
def KeyInState (st : RState) (k : String) : Prop :=
  k ∈ st.pendingTypes.map trKey ∨ k ∈ st.processedTypes.map trKey

/-- The package-registry part of the driver invariant: every cached
record was loaded from the world and keeps its load-time maps, belongs
to a non-standard-library path, holds at least one declaration, and its
declarations come from the package's source without duplicates; its
used-import map resolves through the load-time maps. -/
structure PkgInv (world : World) (st : RState) : Prop where
  pkgStatic : ∀ p pi, assocFind st.packages p = some pi →
    ∃ src, assocFind world p = some src ∧ StaticEq pi src
  pkgNonStd : ∀ p pi, assocFind st.packages p = some pi → isStdlib p = false
  pkgDecls : ∀ p pi, assocFind st.packages p = some pi → pi.decls ≠ []
  declsSrc : ∀ p pi, assocFind st.packages p = some pi →
    ∀ src, assocFind world p = some src → ∀ d ∈ pi.decls, d ∈ src.typeDecls
  declsNodup : ∀ p pi, assocFind st.packages p = some pi →
    (pi.decls.map (·.1)).Nodup
  impWf : ∀ p pi, assocFind st.packages p = some pi →
    ImportsWf (mkWalkEnv p pi []) pi.imports

/-- The driver-loop invariant, holding at every loop boundary. -/
structure Inv (world : World) (root : TypeRef) (st : RState) : Prop where
  pkg : PkgInv world st
  pendNodup : (st.pendingTypes.map trKey).Nodup
  pendNames : ∀ tr ∈ st.pendingTypes, NameOk tr.typeName
  pendUniv : ∀ tr ∈ st.pendingTypes, tr ∈ worldRefs world root
  pendReach : ∀ tr ∈ st.pendingTypes, ReachableRun world root tr
  pendDual : ∀ tr ∈ st.pendingTypes, trKeyMem st.processedTypes tr = true →
    hasDeclB st tr = true
  procNames : ∀ tr ∈ st.processedTypes, NameOk tr.typeName
  procReach : ∀ tr ∈ st.processedTypes, ReachableRun world root tr
  procClosed : ∀ tr ∈ st.processedTypes, isStdlib tr.packagePath = false →
    ∀ r ∈ succRefs world tr, KeyInState st (trKey r)
  procDecl : ∀ tr ∈ st.processedTypes, isStdlib tr.packagePath = false →
    hasDeclB st tr = true
  declProc : ∀ p pi, assocFind st.packages p = some pi →
    ∀ d, d ∈ pi.decls → trKey ⟨p, d.1⟩ ∈ st.processedTypes.map trKey

/-! ### Concrete worlds for the witnesses and counterexamples -/

/-- A one-package world whose single type has no references. -/
def worldLeaf : World :=
  [("example.com/a",
    { pkgName := "a", modulePath := "example.com/a"
      typeDecls := [("T", .structT [])]
      fileImports := [], loaderImports := [] })]

/-- Requesting T from the leaf world. -/
def cfgLeaf : RConfig := ⟨"example.com/a", "T", "generated"⟩

/-- Requesting a type name the leaf world's package does not declare. -/
def cfgMissing : RConfig := ⟨"example.com/a", "Missing", "generated"⟩

/-- A world with a two-type reference cycle: A references B and B
references A. -/
def worldCycle : World :=
  [("example.com/a",
    { pkgName := "a", modulePath := "example.com/a"
      typeDecls := [("A", .star (.ident "B")), ("B", .star (.ident "A"))]
      fileImports := [], loaderImports := [] })]

/-- Requesting A from the cyclic world. -/
def cfgCycle : RConfig := ⟨"example.com/a", "A", "generated"⟩

/-- A world with a self-referential type: A's definition references A. -/
def worldSelfRef : World :=
  [("example.com/a",
    { pkgName := "a", modulePath := "example.com/a"
      typeDecls := [("A", .star (.ident "A"))]
      fileImports := [], loaderImports := [] })]

/-- Requesting the self-referential A. -/
def cfgSelfRef : RConfig := ⟨"example.com/a", "A", "generated"⟩

/-- A world where the requested type references a sibling type of the
same package. -/
def worldSibling : World :=
  [("example.com/a",
    { pkgName := "a", modulePath := "example.com/a"
      typeDecls := [("T", .star (.ident "S")), ("S", .structT [])]
      fileImports := [], loaderImports := [] })]

/-- Requesting T, whose declaration references sibling S. -/
def cfgSibling : RConfig := ⟨"example.com/a", "T", "generated"⟩

/-- A two-package world: T in package a has a field of type b.U from
package b (a distinct module). -/
def worldCross : World :=
  [("example.com/a",
    { pkgName := "a", modulePath := "example.com/a"
      typeDecls := [("T", .structT [.selector "b" "U"])]
      fileImports := [⟨none, "example.com/b"⟩]
      loaderImports := [("example.com/b", "b")] }),
   ("example.com/b",
    { pkgName := "b", modulePath := "example.com/b"
      typeDecls := [("U", .structT [])]
      fileImports := [], loaderImports := [] })]

/-- Requesting T from the cross-package world. -/
def cfgCross : RConfig := ⟨"example.com/a", "T", "generated"⟩

/-- A one-package world with two declarations, reached root-first. -/
def worldTwoDecls : World :=
  [("example.com/a",
    { pkgName := "a", modulePath := "example.com/a"
      typeDecls := [("A", .structT [.ident "B"]), ("B", .structT [])]
      fileImports := [], loaderImports := [] })]

/-- Requesting A from the two-declaration world. -/
def cfgTwoDecls : RConfig := ⟨"example.com/a", "A", "generated"⟩

/-- C4's counterexample check: after one driver step on the
self-referential world, the popped reference is both in the processed
set and back in the pending queue. -/
def selfRefDualCheck : Bool :=
  match driverStep worldSelfRef (initState cfgSelfRef) with
  | .next st =>
    trKeyMem st.processedTypes (rootRef cfgSelfRef) &&
      trKeyMem st.pendingTypes (rootRef cfgSelfRef)
  | _ => false

/-- C5's counterexample check: after extracting T (whose declaration
references sibling S), S's declaration has not been recorded, and a
same-package reference to S sits in the pending queue instead. -/
def siblingDeferredCheck : Bool :=
  match extractType worldSibling (initState cfgSibling) (rootRef cfgSibling) with
  | .ok st =>
    hasDeclB st ⟨"example.com/a", "T"⟩ &&
      !(hasDeclB st ⟨"example.com/a", "S"⟩) &&
      trKeyMem st.pendingTypes ⟨"example.com/a", "S"⟩
  | .error _ => false

/-- C6's counterexample check: an explicit alias on a two-segment path
matches the claim's heuristic, yet the code records it in both maps. -/
def mangledTwoSegmentCheck : Bool :=
  let m := collectSourceImports [⟨some "ab_c", "ab/c"⟩]
  specMangledHeuristic "ab/c" "ab_c" &&
    decide (assocFind m.sourceImports "ab/c" = some ["ab_c"]) &&
    decide (assocFind m.nameToPath "ab_c" = some "ab/c")

/-- C9's counterexample check: from one completed run, two legal map
iteration orders over the same declaration map emit the file's
declarations in different orders. -/
def emitOrderCheck : Bool :=
  match runLoop worldTwoDecls (loopFuel worldTwoDecls (rootRef cfgTwoDecls))
      (initState cfgTwoDecls) with
  | .ok st =>
    match assocFind st.packages "example.com/a" with
    | some pi =>
      let dom := st.packages.map (·.1)
      let io := pi.imports.map (·.1)
      let keys := pi.decls.map (·.1)
      let o₁ := ["A", "B"]
      let o₂ := ["B", "A"]
      decide (o₁.Perm keys) && decide (o₂.Perm keys) &&
        decide (fileDeclNames
            (emitPackageFile cfgTwoDecls dom "example.com/a" pi io o₁) ≠
          fileDeclNames
            (emitPackageFile cfgTwoDecls dom "example.com/a" pi io o₂))
    | none => false
  | .error _ => false

/-! ### Decidable well-formedness checks for concrete worlds -/

/-- Decidable form of `NameOk`: the name contains no '.'. -/
def nameOkB (n : String) : Bool :=
  !(n.data.any (fun c => c == '.'))

/-- Decidable form of `eventNameOk`. -/
def evNameOkB : RefEvent → Bool
  | .localRef _ => true
  | .selRef _ sel => nameOkB sel

/-- Decidable check of `WFWorld`'s per-declaration obligations. -/
def worldNamesOkB (world : World) : Bool :=
  world.all (fun x => x.2.typeDecls.all (fun d =>
    nameOkB d.1 && (exprEvents d.2).all evNameOkB))

/-- Decidable check that no package of a world is standard-library. -/
def nonStdB (world : World) : Bool :=
  world.all (fun x => !(isStdlib x.1))

/-- Decidable check that a candidate reference set is closed under
`succRefs`. -/
def closedRefsB (world : World) (S : List TypeRef) : Bool :=
  S.all (fun a => (succRefs world a).all (fun b => S.contains b))

/-- Decidable check that every non-standard-library reference of a
candidate set loads and resolves. -/
def resolvesAllB (world : World) (S : List TypeRef) : Bool :=
  S.all (fun tr =>
    isStdlib tr.packagePath ||
      (match assocFind world tr.packagePath with
       | none => false
       | some src => (declExprOf src tr.typeName).isSome))

/-- Decidable check that no declaration of the world resolves any
reference (a reference graph with no edges at all). -/
def noEdgesB (world : World) : Bool :=
  world.all (fun x => x.2.typeDecls.all (fun d =>
    ((exprEvents d.2).filterMap (eventRef (srcWalkEnv x.1 x.2))).isEmpty))

/-- A concrete package record with two recorded declarations, for
exercising the emitter under different iteration orders. -/
def piTwoDecls : PkgInfo :=
  { pkgName := "a"
    modulePath := "example.com/a"
    typeDecls := [("A", .structT [.ident "B"]), ("B", .structT [])]
    nameToPath := []
    sourceImports := []
    loaderImports := []
    decls := [("A", .structT [.ident "B"]), ("B", .structT [])]
    imports := [] }

/-- The driver state a successful extraction returns (the start state
again when the extraction failed). -/
def extractResult (world : World) (st : RState) (tr : TypeRef) : RState :=
  match extractType world st tr with
  | .ok st₂ => st₂
  | .error _ => st

/-! ## Theorems -/

/-! ### Key injectivity -/

theorem append_cons_dot_inj {u v a b : List Char}
    (hu : '.' ∉ u) (hv : '.' ∉ v)
    (h : u ++ '.' :: a = v ++ '.' :: b) : u = v ∧ a = b := by
  induction u generalizing v with
  | nil =>
    cases v with
    | nil => simpa using h
    | cons c v' =>
      simp only [List.nil_append, List.cons_append, List.cons.injEq] at h
      have : '.' ∈ c :: v' := by
        rw [← h.1]; exact List.mem_cons_self _ _
      exact absurd this hv
  | cons c u' ih =>
    cases v with
    | nil =>
      simp only [List.cons_append, List.nil_append, List.cons.injEq] at h
      have : '.' ∈ c :: u' := by
        rw [h.1]; exact List.mem_cons_self _ _
      exact absurd this hu
    | cons c' v' =>
      simp only [List.cons_append, List.cons.injEq] at h
      have hu' : '.' ∉ u' := fun hm => hu (List.mem_cons_of_mem c hm)
      have hv' : '.' ∉ v' := fun hm => hv (List.mem_cons_of_mem c' hm)
      obtain ⟨he, ha⟩ := ih hu' hv' h.2
      exact ⟨by rw [h.1, he], ha⟩

theorem trKey_data (tr : TypeRef) :
    (trKey tr).data = tr.packagePath.data ++ '.' :: tr.typeName.data := by
  have hdot : ("." : String).data = ['.'] := rfl
  simp [trKey, String.data_append, hdot]

theorem trKey_inj {a b : TypeRef} (ha : NameOk a.typeName)
    (hb : NameOk b.typeName) (h : trKey a = trKey b) : a = b := by
  have hd := congrArg String.data h
  rw [trKey_data, trKey_data] at hd
  have hrev := congrArg List.reverse hd
  simp only [List.reverse_append, List.reverse_cons] at hrev
  have hrev' : a.typeName.data.reverse ++ '.' :: a.packagePath.data.reverse =
      b.typeName.data.reverse ++ '.' :: b.packagePath.data.reverse := by
    simpa [List.append_assoc] using hrev
  have hu : '.' ∉ a.typeName.data.reverse := by
    simpa [List.mem_reverse] using ha
  have hv : '.' ∉ b.typeName.data.reverse := by
    simpa [List.mem_reverse] using hb
  obtain ⟨hn, hp⟩ := append_cons_dot_inj hu hv hrev'
  have hname : a.typeName = b.typeName :=
    String.ext (List.reverse_injective hn)
  have hpath : a.packagePath = b.packagePath :=
    String.ext (List.reverse_injective hp)
  cases a; cases b
  simp_all

theorem trKeyMem_iff {l : List TypeRef} {tr : TypeRef} :
    trKeyMem l tr = true ↔ ∃ x ∈ l, trKey x = trKey tr := by
  simp [trKeyMem, List.any_eq_true, beq_iff_eq]

theorem trKeyMem_key_iff {l : List TypeRef} {tr : TypeRef} :
    trKeyMem l tr = true ↔ trKey tr ∈ l.map trKey := by
  rw [trKeyMem_iff]
  constructor
  · rintro ⟨x, hx, he⟩; exact he ▸ List.mem_map_of_mem trKey hx
  · intro h
    obtain ⟨x, hx, he⟩ := List.mem_map.1 h
    exact ⟨x, hx, he⟩

theorem trKeyMem_append {l₁ l₂ : List TypeRef} {tr : TypeRef} :
    trKeyMem (l₁ ++ l₂) tr = (trKeyMem l₁ tr || trKeyMem l₂ tr) := by
  simp [trKeyMem, List.any_append]

/-! ### Association-list lemmas -/

theorem assocFind_mem {α : Type} {l : List (String × α)} {k : String} {v : α}
    (h : assocFind l k = some v) : (k, v) ∈ l := by
  unfold assocFind at h
  cases hf : l.find? (fun x => x.1 == k) with
  | none => rw [hf] at h; cases h
  | some x =>
    rw [hf] at h
    have hx : x ∈ l := List.mem_of_find?_eq_some hf
    have hp := List.find?_some hf
    have h1 : x.1 = k := by simpa [beq_iff_eq] using hp
    have h2 : x.2 = v := by simpa using h
    have hxv : x = (k, v) := by cases x; simp_all
    rwa [hxv] at hx

theorem assocFind_isSome_iff {α : Type} {l : List (String × α)} {k : String} :
    (assocFind l k).isSome = true ↔ k ∈ l.map (·.1) := by
  unfold assocFind
  constructor
  · intro h
    cases hf : l.find? (fun x => x.1 == k) with
    | none => rw [hf] at h; simp at h
    | some x =>
      have hx : x ∈ l := List.mem_of_find?_eq_some hf
      have hp := List.find?_some hf
      exact List.mem_map.2 ⟨x, hx, by simpa [beq_iff_eq] using hp⟩
  · intro h
    obtain ⟨x, hx, hk⟩ := List.mem_map.1 h
    cases hf : l.find? (fun x => x.1 == k) with
    | none =>
      have := List.find?_eq_none.1 hf x hx
      exact absurd (by simpa [beq_iff_eq] using hk) this
    | some y => simp [hf]

theorem find?_map_set {α : Type} (l : List (String × α)) (k : String) (v : α) :
    (l.map (fun x => if x.1 == k then (k, v) else x)).find?
        (fun x => x.1 == k) =
      if (l.find? (fun x => x.1 == k)).isSome then some (k, v) else none := by
  induction l with
  | nil => simp
  | cons x xs ih =>
    by_cases hk : (x.1 == k) = true
    · have hfx : (if (x.1 == k) = true then (k, v) else x) = (k, v) := by
        rw [hk]; simp
      rw [List.map_cons, hfx, List.find?_cons, List.find?_cons, hk]
      simp
    · have hkf : (x.1 == k) = false := by simpa using hk
      have hfx : (if (x.1 == k) = true then (k, v) else x) = x := by
        rw [hkf]; simp
      rw [List.map_cons, hfx, List.find?_cons, List.find?_cons, hkf]
      simpa using ih

theorem find?_map_set_ne {α : Type} (l : List (String × α)) (k k' : String)
    (v : α) (h : k' ≠ k) :
    (l.map (fun x => if x.1 == k then (k, v) else x)).find?
        (fun x => x.1 == k') = l.find? (fun x => x.1 == k') := by
  have hkk : (k == k') = false := by
    simp only [beq_eq_false_iff_ne, ne_eq]
    exact fun he => h he.symm
  induction l with
  | nil => simp
  | cons x xs ih =>
    by_cases hk : (x.1 == k) = true
    · have hx1 : x.1 = k := by simpa [beq_iff_eq] using hk
      have hxk' : (x.1 == k') = false := by rw [hx1]; exact hkk
      have hfx : (if (x.1 == k) = true then (k, v) else x) = (k, v) := by
        rw [hk]; simp
      rw [List.map_cons, hfx, List.find?_cons, List.find?_cons, hxk']
      simpa [hkk] using ih
    · have hkf : (x.1 == k) = false := by simpa using hk
      have hfx : (if (x.1 == k) = true then (k, v) else x) = x := by
        rw [hkf]; simp
      by_cases hk' : (x.1 == k') = true
      · rw [List.map_cons, hfx, List.find?_cons, List.find?_cons, hk']
      · have hk'f : (x.1 == k') = false := by simpa using hk'
        rw [List.map_cons, hfx, List.find?_cons, List.find?_cons, hk'f]
        simpa using ih

theorem find?_append_of_none {α : Type} {l₁ l₂ : List α} {p : α → Bool}
    (h : l₁.find? p = none) : (l₁ ++ l₂).find? p = l₂.find? p := by
  induction l₁ with
  | nil => simp
  | cons x xs ih =>
    cases hx : p x with
    | true => simp [List.find?_cons, hx] at h
    | false =>
      rw [List.find?_cons, hx] at h
      rw [List.cons_append, List.find?_cons, hx]
      exact ih h

theorem find?_append_of_some {α : Type} {l₁ l₂ : List α} {p : α → Bool}
    {x : α} (h : l₁.find? p = some x) : (l₁ ++ l₂).find? p = some x := by
  induction l₁ with
  | nil => cases h
  | cons y ys ih =>
    cases hy : p y with
    | true =>
      rw [List.find?_cons, hy] at h
      rw [List.cons_append, List.find?_cons, hy]
      exact h
    | false =>
      rw [List.find?_cons, hy] at h
      rw [List.cons_append, List.find?_cons, hy]
      exact ih h

theorem assocFind_assocSet_self {α : Type} (l : List (String × α))
    (k : String) (v : α) : assocFind (assocSet l k v) k = some v := by
  unfold assocSet
  split
  · next hs => unfold assocFind; rw [find?_map_set, if_pos hs]; rfl
  · next hs =>
    unfold assocFind
    have hnone : l.find? (fun x => x.1 == k) = none := by
      cases hf : l.find? (fun x => x.1 == k) with
      | none => rfl
      | some x => rw [hf] at hs; simp at hs
    rw [find?_append_of_none hnone]
    simp [List.find?_cons]

theorem assocFind_assocSet_ne {α : Type} (l : List (String × α))
    (k k' : String) (v : α) (h : k' ≠ k) :
    assocFind (assocSet l k v) k' = assocFind l k' := by
  have hkk : (k == k') = false := by
    simp only [beq_eq_false_iff_ne, ne_eq]
    exact fun he => h he.symm
  unfold assocSet
  split
  · unfold assocFind; rw [find?_map_set_ne l k k' v h]
  · unfold assocFind
    cases hf : l.find? (fun x => x.1 == k') with
    | some x =>
      rw [find?_append_of_some hf]
    | none =>
      rw [find?_append_of_none hf]
      simp [hf, List.find?_cons, hkk]

theorem assocSet_mem {α : Type} {l : List (String × α)} {k : String} {v : α}
    {r : String × α} (h : r ∈ assocSet l k v) : r ∈ l ∨ r = (k, v) := by
  unfold assocSet at h
  split at h
  · obtain ⟨x, hx, hxr⟩ := List.mem_map.1 h
    by_cases hk : (x.1 == k) = true
    · right; rw [← hxr]; simp [hk]
    · left; rw [← hxr]; simp only [if_neg hk]; exact hx
  · rcases List.mem_append.1 h with h | h
    · left; exact h
    · right; simpa using h

theorem assocSet_map_fst_sub {α : Type} (l : List (String × α)) (k : String)
    (v : α) : ∀ k' ∈ (assocSet l k v).map (·.1), k' ∈ l.map (·.1) ∨ k' = k := by
  intro k' hk'
  obtain ⟨r, hr, hrk⟩ := List.mem_map.1 hk'
  rcases assocSet_mem hr with h | h
  · left; exact List.mem_map.2 ⟨r, h, hrk⟩
  · right; rw [← hrk, h]

/-! ### `queueType` lemmas -/

theorem queueType_cases (pr pd : List TypeRef) (p n : String) :
    queueType pr pd p n = pd ∨
    (queueType pr pd p n = pd ++ [⟨p, n⟩] ∧
      trKeyMem pr ⟨p, n⟩ = false ∧
      pd.any (fun x => trKey x == trKey ⟨p, n⟩) = false) := by
  unfold queueType
  by_cases h1 : trKeyMem pr ⟨p, n⟩ = true
  · left; simp [h1]
  · by_cases h2 : pd.any (fun x => trKey x == trKey (⟨p, n⟩ : TypeRef)) = true
    · left; simp [h1, h2]
    · right
      refine ⟨by simp [h1, h2], by simpa using h1, by simpa using h2⟩

theorem queueType_append (pr pd : List TypeRef) (p n : String) :
    ∃ extra, queueType pr pd p n = pd ++ extra ∧
      ∀ r ∈ extra, r = (⟨p, n⟩ : TypeRef) ∧ trKeyMem pr r = false := by
  rcases queueType_cases pr pd p n with h | ⟨h, h2, _⟩
  · exact ⟨[], by simpa using h, by simp⟩
  · exact ⟨[⟨p, n⟩], h, by intro r hr; simp at hr; subst hr; exact ⟨rfl, h2⟩⟩

theorem queueType_key_covered (pr pd : List TypeRef) (p n : String) :
    trKey (⟨p, n⟩ : TypeRef) ∈ (queueType pr pd p n).map trKey ∨
    trKey (⟨p, n⟩ : TypeRef) ∈ pr.map trKey := by
  unfold queueType
  by_cases h1 : trKeyMem pr ⟨p, n⟩ = true
  · right; exact trKeyMem_key_iff.1 h1
  · by_cases h2 : pd.any (fun x => trKey x == trKey (⟨p, n⟩ : TypeRef)) = true
    · left
      simp only [if_neg h1, if_pos h2]
      rcases List.any_eq_true.1 h2 with ⟨x, hx, he⟩
      exact List.mem_map.2 ⟨x, hx, by simpa [beq_iff_eq] using he⟩
    · left
      simp only [if_neg h1, if_neg h2]
      simp

theorem queueType_mem_key_mono {pr pd : List TypeRef} {p n : String}
    {k : String} (h : k ∈ pd.map trKey) :
    k ∈ (queueType pr pd p n).map trKey := by
  rcases queueType_cases pr pd p n with he | ⟨he, _, _⟩ <;> rw [he]
  · exact h
  · simp only [List.map_append]; exact List.mem_append.2 (Or.inl h)

theorem queueType_nodup {pr pd : List TypeRef} {p n : String}
    (h : (pd.map trKey).Nodup) :
    ((queueType pr pd p n).map trKey).Nodup := by
  rcases queueType_cases pr pd p n with he | ⟨he, _, h3⟩ <;> rw [he]
  · exact h
  · simp only [List.map_append, List.map_cons, List.map_nil]
    rw [List.nodup_append]
    refine ⟨h, List.nodup_singleton _, ?_⟩
    intro k hk
    simp only [List.mem_singleton]
    intro hke
    obtain ⟨x, hx, hxk⟩ := List.mem_map.1 hk
    have hbx : (trKey x == trKey (⟨p, n⟩ : TypeRef)) = true := by
      rw [beq_iff_eq, hxk, hke]
    have hcontra : (pd.any fun y =>
        trKey y == trKey (⟨p, n⟩ : TypeRef)) = true :=
      List.any_eq_true.2 ⟨x, hx, hbx⟩
    rw [h3] at hcontra
    cases hcontra

/-! ### The walker as a fold over its reference events -/

mutual

theorem walkTypeForDeps_eq_fold (env : WalkEnv) :
    (e : TypeExpr) → (s : WalkSt) →
    walkTypeForDeps env e s = (exprEvents e).foldl (stepRefEvent env) s
  | .ident n, s => by
    simp only [walkTypeForDeps, exprEvents, List.foldl_cons, List.foldl_nil,
      stepRefEvent]
  | .star x, s => by
    simp only [walkTypeForDeps, exprEvents]
    exact walkTypeForDeps_eq_fold env x s
  | .array elt, s => by
    simp only [walkTypeForDeps, exprEvents]
    exact walkTypeForDeps_eq_fold env elt s
  | .mapT k v, s => by
    simp only [walkTypeForDeps, exprEvents, List.foldl_append]
    rw [walkTypeForDeps_eq_fold env k s, walkTypeForDeps_eq_fold env v]
  | .structT fields, s => by
    simp only [walkTypeForDeps, exprEvents]
    exact walkFieldList_eq_fold env fields s
  | .selector x sel, s => by
    simp only [walkTypeForDeps, exprEvents, List.foldl_cons, List.foldl_nil,
      stepRefEvent]
  | .interfaceT methods, s => by
    simp only [walkTypeForDeps, exprEvents]
    exact walkFieldList_eq_fold env methods s
  | .funcT params results, s => by
    simp only [walkTypeForDeps, exprEvents, List.foldl_append]
    rw [walkFieldList_eq_fold env params s, walkFieldList_eq_fold env results]
  | .chanT v, s => by
    simp only [walkTypeForDeps, exprEvents]
    exact walkTypeForDeps_eq_fold env v s
  | .ellipsis elt, s => by
    simp only [walkTypeForDeps, exprEvents]
    exact walkTypeForDeps_eq_fold env elt s

theorem walkFieldList_eq_fold (env : WalkEnv) :
    (fs : List TypeExpr) → (s : WalkSt) →
    walkFieldList env fs s = (fieldListEvents fs).foldl (stepRefEvent env) s
  | [], _ => by simp [walkFieldList, fieldListEvents]
  | f :: fs, s => by
    simp only [walkFieldList, fieldListEvents, List.foldl_append]
    rw [walkTypeForDeps_eq_fold env f s, walkFieldList_eq_fold env fs]

end

/-! ### Resolution and the walk-state fold -/

theorem resolveExternalPath_eq_pure {env : WalkEnv}
    {imports : List (String × String)} (h : ImportsWf env imports)
    (x : String) : resolveExternalPath env imports x = resolvePure env x := by
  unfold resolveExternalPath resolvePure
  cases hn : assocFind env.nameToPath x with
  | some p => rfl
  | none =>
    cases hl : lookupLoaderName env.loaderImports x with
    | some p => rfl
    | none =>
      cases hf : imports.find? (fun pr => pr.2 == x) with
      | none => simp
      | some pr =>
        exfalso
        have hm : pr ∈ imports := List.mem_of_find?_eq_some hf
        have hp := List.find?_some hf
        have hx : pr.2 = x := by simpa [beq_iff_eq] using hp
        have hw := h pr hm
        rw [hx] at hw
        simp [resolvePure, hn, hl] at hw

theorem stepRefEvent_pending {env : WalkEnv} {s : WalkSt}
    (h : ImportsWf env s.imports) (ev : RefEvent) :
    (stepRefEvent env s ev).pendingTypes = queueStep env s.pendingTypes ev := by
  cases ev with
  | localRef n =>
    by_cases hn : n ∈ env.scopeTypes
    · simp [stepRefEvent, queueStep, eventRef, hn]
    · simp [stepRefEvent, queueStep, eventRef, hn]
  | selRef x sel =>
    have hre := resolveExternalPath_eq_pure h x
    cases hr : resolvePure env x with
    | none => simp [stepRefEvent, queueStep, eventRef, hre, hr]
    | some q => simp [stepRefEvent, queueStep, eventRef, hre, hr]

theorem stepRefEvent_importsWf {env : WalkEnv} {s : WalkSt}
    (h : ImportsWf env s.imports) (ev : RefEvent) :
    ImportsWf env (stepRefEvent env s ev).imports := by
  cases ev with
  | localRef n =>
    by_cases hn : n ∈ env.scopeTypes
    · simpa [stepRefEvent, hn] using h
    · simpa [stepRefEvent, hn] using h
  | selRef x sel =>
    cases hr : resolveExternalPath env s.imports x with
    | none => simpa [stepRefEvent, hr] using h
    | some q =>
      simp only [stepRefEvent, hr]
      intro pr hpr
      rcases assocSet_mem hpr with hm | he
      · exact h pr hm
      · have hq := resolveExternalPath_eq_pure h x
        rw [hr] at hq
        rw [he]
        exact hq.symm

theorem queueEvents_cons (env : WalkEnv) (ev : RefEvent) (evs : List RefEvent)
    (pd : List TypeRef) :
    queueEvents env (ev :: evs) pd = queueEvents env evs (queueStep env pd ev) :=
  rfl

theorem foldl_stepRefEvent_spec {env : WalkEnv} :
    ∀ (evs : List RefEvent) (s : WalkSt), ImportsWf env s.imports →
      (evs.foldl (stepRefEvent env) s).pendingTypes =
        queueEvents env evs s.pendingTypes ∧
      ImportsWf env (evs.foldl (stepRefEvent env) s).imports
  | [], _, h => ⟨rfl, h⟩
  | ev :: evs, s, h => by
    have h1 := stepRefEvent_pending h ev
    have h2 := stepRefEvent_importsWf h ev
    obtain ⟨ih1, ih2⟩ := foldl_stepRefEvent_spec evs (stepRefEvent env s ev) h2
    constructor
    · rw [List.foldl_cons, ih1, h1, queueEvents_cons]
    · rw [List.foldl_cons]; exact ih2

/-! ### Queue-fold lemmas -/

theorem queueStep_append (env : WalkEnv) (pd : List TypeRef) (ev : RefEvent) :
    ∃ extra, queueStep env pd ev = pd ++ extra ∧
      ∀ r ∈ extra, eventRef env ev = some r ∧
        trKeyMem env.processed r = false := by
  unfold queueStep
  cases he : eventRef env ev with
  | none => exact ⟨[], by simp, by simp⟩
  | some r =>
    obtain ⟨extra, h1, h2⟩ :=
      queueType_append env.processed pd r.packagePath r.typeName
    refine ⟨extra, h1, ?_⟩
    intro x hx
    obtain ⟨he2, h3⟩ := h2 x hx
    subst he2
    exact ⟨rfl, h3⟩

theorem queueStep_nodup {env : WalkEnv} {pd : List TypeRef} {ev : RefEvent}
    (h : (pd.map trKey).Nodup) :
    ((queueStep env pd ev).map trKey).Nodup := by
  unfold queueStep
  cases eventRef env ev with
  | none => exact h
  | some r => exact queueType_nodup h

theorem queueEvents_append (env : WalkEnv) :
    ∀ (evs : List RefEvent) (pd : List TypeRef),
      ∃ extra, queueEvents env evs pd = pd ++ extra ∧
        ∀ r ∈ extra, r ∈ evs.filterMap (eventRef env) ∧
          trKeyMem env.processed r = false
  | [], pd => ⟨[], by simp [queueEvents], by simp⟩
  | ev :: evs, pd => by
    obtain ⟨e₁, h1, h2⟩ := queueStep_append env pd ev
    obtain ⟨e₂, h3, h4⟩ := queueEvents_append env evs (queueStep env pd ev)
    refine ⟨e₁ ++ e₂, ?_, ?_⟩
    · rw [queueEvents_cons, h3, h1, List.append_assoc]
    · intro r hr
      rcases List.mem_append.1 hr with hm | hm
      · obtain ⟨ha, hb⟩ := h2 r hm
        exact ⟨List.mem_filterMap.2 ⟨ev, List.mem_cons_self _ _, ha⟩, hb⟩
      · obtain ⟨ha, hb⟩ := h4 r hm
        obtain ⟨ev', hev', he'⟩ := List.mem_filterMap.1 ha
        exact ⟨List.mem_filterMap.2 ⟨ev', List.mem_cons_of_mem _ hev', he'⟩, hb⟩

theorem queueEvents_key_mono (env : WalkEnv) (evs : List RefEvent)
    (pd : List TypeRef) {k : String} (h : k ∈ pd.map trKey) :
    k ∈ (queueEvents env evs pd).map trKey := by
  obtain ⟨extra, he, _⟩ := queueEvents_append env evs pd
  rw [he, List.map_append]
  exact List.mem_append.2 (Or.inl h)

theorem queueEvents_covered (env : WalkEnv) :
    ∀ (evs : List RefEvent) (pd : List TypeRef) (r : TypeRef),
      r ∈ evs.filterMap (eventRef env) →
      trKey r ∈ (queueEvents env evs pd).map trKey ∨
        trKey r ∈ env.processed.map trKey
  | [], _, r, h => by simp at h
  | ev :: evs, pd, r, h => by
    rw [List.filterMap_cons] at h
    cases he : eventRef env ev with
    | none =>
      rw [he] at h
      rw [queueEvents_cons]
      exact queueEvents_covered env evs (queueStep env pd ev) r h
    | some r' =>
      rw [he] at h
      rcases List.mem_cons.1 h with hrr | hm
      · subst hrr
        have hcov := queueType_key_covered env.processed pd
          r.packagePath r.typeName
        rcases hcov with hc | hc
        · left
          rw [queueEvents_cons]
          refine queueEvents_key_mono env evs _ ?_
          unfold queueStep
          rw [he]
          exact hc
        · right; exact hc
      · rw [queueEvents_cons]
        exact queueEvents_covered env evs (queueStep env pd ev) r hm

theorem queueEvents_nodup (env : WalkEnv) :
    ∀ (evs : List RefEvent) (pd : List TypeRef),
      (pd.map trKey).Nodup → ((queueEvents env evs pd).map trKey).Nodup
  | [], _, h => h
  | ev :: evs, pd, h => by
    rw [queueEvents_cons]
    exact queueEvents_nodup env evs (queueStep env pd ev) (queueStep_nodup h)

/-! ### Environment congruence -/

theorem resolvePure_congr {env₁ env₂ : WalkEnv}
    (h3 : env₁.nameToPath = env₂.nameToPath)
    (h4 : env₁.loaderImports = env₂.loaderImports) (x : String) :
    resolvePure env₁ x = resolvePure env₂ x := by
  unfold resolvePure
  rw [h3, h4]

theorem eventRef_congr {env₁ env₂ : WalkEnv}
    (h1 : env₁.pkgPath = env₂.pkgPath)
    (h2 : env₁.scopeTypes = env₂.scopeTypes)
    (h3 : env₁.nameToPath = env₂.nameToPath)
    (h4 : env₁.loaderImports = env₂.loaderImports) (ev : RefEvent) :
    eventRef env₁ ev = eventRef env₂ ev := by
  cases ev with
  | localRef n => simp [eventRef, h1, h2]
  | selRef x sel => simp [eventRef, resolvePure_congr h3 h4]

theorem staticEq_mkPkgInfo (src : SrcPackage) : StaticEq (mkPkgInfo src) src := by
  simp [StaticEq, mkPkgInfo]

theorem eventRef_static {p : String} {pi : PkgInfo} {src : SrcPackage}
    (h : StaticEq pi src) (proc : List TypeRef) (ev : RefEvent) :
    eventRef (mkWalkEnv p pi proc) ev = eventRef (srcWalkEnv p src) ev := by
  obtain ⟨_, _, h3, h4, _, h6⟩ := h
  exact eventRef_congr (by simp [mkWalkEnv, srcWalkEnv, mkPkgInfo])
    (by simp [mkWalkEnv, srcWalkEnv, mkPkgInfo, h3])
    (by simp [mkWalkEnv, srcWalkEnv, mkPkgInfo, h4])
    (by simp [mkWalkEnv, srcWalkEnv, mkPkgInfo, h6]) ev

theorem filterMap_eventRef_static {p : String} {pi : PkgInfo}
    {src : SrcPackage} (h : StaticEq pi src) (proc : List TypeRef)
    (evs : List RefEvent) :
    evs.filterMap (eventRef (mkWalkEnv p pi proc)) =
      evs.filterMap (eventRef (srcWalkEnv p src)) := by
  induction evs with
  | nil => rfl
  | cons ev evs ih =>
    rw [List.filterMap_cons, List.filterMap_cons, eventRef_static h proc ev, ih]

theorem importsWf_congr {env₁ env₂ : WalkEnv}
    (h3 : env₁.nameToPath = env₂.nameToPath)
    (h4 : env₁.loaderImports = env₂.loaderImports)
    {imports : List (String × String)} (h : ImportsWf env₁ imports) :
    ImportsWf env₂ imports := by
  intro pr hpr
  rw [← resolvePure_congr h3 h4]
  exact h pr hpr

/-! ### Computation rules for `succRefs` -/

theorem succRefs_eq_of_none {world : World} {tr : TypeRef}
    (hw : assocFind world tr.packagePath = none) : succRefs world tr = [] := by
  unfold succRefs
  simp only [hw]

theorem succRefs_eq_of_noDecl {world : World} {tr : TypeRef}
    {src : SrcPackage} (hw : assocFind world tr.packagePath = some src)
    (hd : declExprOf src tr.typeName = none) : succRefs world tr = [] := by
  unfold succRefs
  simp only [hw, hd]

theorem succRefs_eq_of_decl {world : World} {tr : TypeRef} {src : SrcPackage}
    {e : TypeExpr} (hw : assocFind world tr.packagePath = some src)
    (hd : declExprOf src tr.typeName = some e) :
    succRefs world tr =
      (exprEvents e).filterMap (eventRef (srcWalkEnv tr.packagePath src)) := by
  unfold succRefs
  simp only [hw, hd]

/-! ### Names along the graph -/

theorem declExprOf_mem {src : SrcPackage} {n : String} {e : TypeExpr}
    (h : declExprOf src n = some e) : (n, e) ∈ src.typeDecls := by
  unfold declExprOf at h
  cases hf : src.typeDecls.find? (fun d => d.1 == n) with
  | none => rw [hf] at h; cases h
  | some d =>
    rw [hf] at h
    have hd : d ∈ src.typeDecls := List.mem_of_find?_eq_some hf
    have hp := List.find?_some hf
    have h1 : d.1 = n := by simpa [beq_iff_eq] using hp
    have h2 : d.2 = e := by simpa using h
    have : d = (n, e) := by cases d; simp_all
    rwa [this] at hd

theorem succRefs_nameOk {world : World} {root : TypeRef}
    (hwf : WFWorld world root) {tr r : TypeRef}
    (h : r ∈ succRefs world tr) : NameOk r.typeName := by
  cases hw : assocFind world tr.packagePath with
  | none => rw [succRefs_eq_of_none hw] at h; cases h
  | some src =>
    cases hd : declExprOf src tr.typeName with
    | none => rw [succRefs_eq_of_noDecl hw hd] at h; cases h
    | some e =>
      rw [succRefs_eq_of_decl hw hd] at h
      obtain ⟨ev, hev, her⟩ := List.mem_filterMap.1 h
      have hde : (tr.typeName, e) ∈ src.typeDecls := declExprOf_mem hd
      cases ev with
      | localRef n =>
        simp only [eventRef] at her
        split at her
        · next hn =>
          have hr : (⟨(srcWalkEnv tr.packagePath src).pkgPath, n⟩ : TypeRef)
              = r := Option.some.inj her
          have hscope : n ∈ src.typeDecls.map (·.1) := by
            simpa [srcWalkEnv, mkWalkEnv, mkPkgInfo] using hn
          obtain ⟨d, hdm, hd1⟩ := List.mem_map.1 hscope
          rw [← hr]
          show NameOk n
          exact hd1 ▸ hwf.declOk tr.packagePath src hw d hdm
        · cases her
      | selRef x sel =>
        simp only [eventRef] at her
        cases hres : resolvePure (srcWalkEnv tr.packagePath src) x with
        | none =>
          rw [hres] at her
          simp at her
        | some q =>
          rw [hres] at her
          have hr : (⟨q, sel⟩ : TypeRef) = r := by simpa using her
          rw [← hr]
          show NameOk sel
          exact hwf.evOk tr.packagePath src hw (tr.typeName, e) hde
            (.selRef x sel) hev

theorem reachable_nameOk {world : World} {root : TypeRef}
    (hwf : WFWorld world root) {tr : TypeRef}
    (h : ReachableRun world root tr) : NameOk tr.typeName := by
  induction h with
  | refl => exact hwf.rootOk
  | tail _ hedge _ => exact succRefs_nameOk hwf hedge.2

/-! ### Universe membership -/

theorem foldr_events_mem {env : WalkEnv} :
    ∀ (ds : List (String × TypeExpr)) (d : String × TypeExpr), d ∈ ds →
      ∀ r ∈ (exprEvents d.2).filterMap (eventRef env),
      r ∈ ds.foldr
        (fun d acc => (exprEvents d.2).filterMap (eventRef env) ++ acc) []
  | [], _, hd, _, _ => absurd hd (List.not_mem_nil _)
  | d' :: ds, d, hd, r, hr => by
    rw [List.foldr_cons]
    rcases List.mem_cons.1 hd with rfl | hdm
    · exact List.mem_append.2 (Or.inl hr)
    · exact List.mem_append.2 (Or.inr (foldr_events_mem ds d hdm r hr))

theorem pkgRefs_mem {p : String} {src : SrcPackage} {d : String × TypeExpr}
    (hd : d ∈ src.typeDecls) {r : TypeRef}
    (hr : r ∈ (exprEvents d.2).filterMap (eventRef (srcWalkEnv p src))) :
    r ∈ pkgRefs p src :=
  foldr_events_mem src.typeDecls d hd r hr

theorem worldRefs_mem {world : World} {root : TypeRef} {p : String}
    {src : SrcPackage} (hm : (p, src) ∈ world) {r : TypeRef}
    (hr : r ∈ pkgRefs p src) : r ∈ worldRefs world root := by
  unfold worldRefs
  refine List.mem_cons_of_mem root ?_
  induction world with
  | nil => cases hm
  | cons e es ih =>
    rw [List.foldr_cons]
    rcases List.mem_cons.1 hm with rfl | hmm
    · exact List.mem_append.2 (Or.inl hr)
    · exact List.mem_append.2 (Or.inr (ih hmm))

theorem succRefs_sub_worldRefs {world : World} {root : TypeRef}
    {tr r : TypeRef} (h : r ∈ succRefs world tr) :
    r ∈ worldRefs world root := by
  cases hw : assocFind world tr.packagePath with
  | none => rw [succRefs_eq_of_none hw] at h; cases h
  | some src =>
    cases hd : declExprOf src tr.typeName with
    | none => rw [succRefs_eq_of_noDecl hw hd] at h; cases h
    | some e =>
      rw [succRefs_eq_of_decl hw hd] at h
      exact worldRefs_mem (assocFind_mem hw)
        (pkgRefs_mem (declExprOf_mem hd) h)

theorem root_mem_worldRefs (world : World) (root : TypeRef) :
    root ∈ worldRefs world root :=
  List.mem_cons_self root _

/-! ### `loadPackageInfo` and `hasDeclB` helpers -/

theorem loadPackageInfo_ok {world : World} {st : RState} {p : String}
    {pi : PkgInfo} {st₁ : RState}
    (h : loadPackageInfo world st p = .ok (pi, st₁)) :
    st₁.pendingTypes = st.pendingTypes ∧
    st₁.processedTypes = st.processedTypes ∧
    assocFind st₁.packages p = some pi ∧
    (∀ p', p' ≠ p → assocFind st₁.packages p' = assocFind st.packages p') ∧
    ((assocFind st.packages p = some pi ∧ st₁ = st) ∨
      (assocFind st.packages p = none ∧
        ∃ src, assocFind world p = some src ∧ pi = mkPkgInfo src ∧
          st₁.packages = st.packages ++ [(p, pi)])) := by
  unfold loadPackageInfo at h
  cases hc : assocFind st.packages p with
  | some pi' =>
    rw [hc] at h
    cases h
    refine ⟨rfl, rfl, ?_, fun _ _ => rfl, Or.inl ⟨?_, rfl⟩⟩ <;>
      first
      | exact hc
      | rfl
  | none =>
    rw [hc] at h
    cases hw : assocFind world p with
    | none => rw [hw] at h; cases h
    | some src =>
      rw [hw] at h
      cases h
      refine ⟨rfl, rfl, ?_, ?_, Or.inr ⟨?hcg, src, ?hwg, rfl, rfl⟩⟩
      case hcg =>
        first
        | exact hc
        | rfl
      case hwg =>
        first
        | exact hw
        | rfl
      · show assocFind (st.packages ++ [(p, mkPkgInfo src)]) p = _
        have hnone : st.packages.find? (fun x => x.1 == p) = none := by
          unfold assocFind at hc
          cases hf : st.packages.find? (fun x => x.1 == p) with
          | none => rfl
          | some x => rw [hf] at hc; cases hc
        unfold assocFind
        rw [find?_append_of_none hnone]
        simp [List.find?_cons]
      · intro p' hp'
        show assocFind (st.packages ++ [(p, mkPkgInfo src)]) p' = _
        unfold assocFind
        cases hf : st.packages.find? (fun x => x.1 == p') with
        | some x => rw [find?_append_of_some hf]
        | none =>
          rw [find?_append_of_none hf]
          have hne : (p == p') = false := by
            simp only [beq_eq_false_iff_ne, ne_eq]
            exact fun he => hp' he.symm
          simp [List.find?_cons, hne]

theorem hasDeclB_load {world : World} {st : RState} {p : String}
    {pi : PkgInfo} {st₁ : RState}
    (h : loadPackageInfo world st p = .ok (pi, st₁)) (q : TypeRef) :
    hasDeclB st₁ q = hasDeclB st q := by
  obtain ⟨_, _, hfind, hother, hcase⟩ := loadPackageInfo_ok h
  rcases hcase with ⟨_, rfl⟩ | ⟨hnone, src, _, hpi, _⟩
  · rfl
  · unfold hasDeclB
    by_cases hq : q.packagePath = p
    · rw [hq, hfind, hnone, hpi]
      simp [mkPkgInfo]
    · rw [hother q.packagePath hq]

/-! ### `collectTypeDecl` facts -/

theorem collectTypeDecl_typeDecls (pi : PkgInfo) (n : String) (e : TypeExpr) :
    (collectTypeDecl pi n e).typeDecls = pi.typeDecls := by
  unfold collectTypeDecl; split <;> rfl

theorem collectTypeDecl_nameToPath (pi : PkgInfo) (n : String) (e : TypeExpr) :
    (collectTypeDecl pi n e).nameToPath = pi.nameToPath := by
  unfold collectTypeDecl; split <;> rfl

theorem collectTypeDecl_sourceImports (pi : PkgInfo) (n : String)
    (e : TypeExpr) :
    (collectTypeDecl pi n e).sourceImports = pi.sourceImports := by
  unfold collectTypeDecl; split <;> rfl

theorem collectTypeDecl_loaderImports (pi : PkgInfo) (n : String)
    (e : TypeExpr) :
    (collectTypeDecl pi n e).loaderImports = pi.loaderImports := by
  unfold collectTypeDecl; split <;> rfl

theorem collectTypeDecl_pkgName (pi : PkgInfo) (n : String) (e : TypeExpr) :
    (collectTypeDecl pi n e).pkgName = pi.pkgName := by
  unfold collectTypeDecl; split <;> rfl

theorem collectTypeDecl_modulePath (pi : PkgInfo) (n : String) (e : TypeExpr) :
    (collectTypeDecl pi n e).modulePath = pi.modulePath := by
  unfold collectTypeDecl; split <;> rfl

theorem collectTypeDecl_imports (pi : PkgInfo) (n : String) (e : TypeExpr) :
    (collectTypeDecl pi n e).imports = pi.imports := by
  unfold collectTypeDecl; split <;> rfl

theorem collectTypeDecl_decls (pi : PkgInfo) (n : String) (e : TypeExpr) :
    (collectTypeDecl pi n e).decls =
      if (pi.decls.find? (fun d => d.1 == n)).isSome then pi.decls
      else pi.decls ++ [(n, e)] := by
  unfold collectTypeDecl
  split <;> rfl

theorem collectTypeDecl_staticEq {pi : PkgInfo} {src : SrcPackage}
    (h : StaticEq pi src) (n : String) (e : TypeExpr) :
    StaticEq (collectTypeDecl pi n e) src := by
  obtain ⟨h1, h2, h3, h4, h5, h6⟩ := h
  exact ⟨collectTypeDecl_pkgName pi n e ▸ h1,
    collectTypeDecl_modulePath pi n e ▸ h2,
    collectTypeDecl_typeDecls pi n e ▸ h3,
    collectTypeDecl_nameToPath pi n e ▸ h4,
    collectTypeDecl_sourceImports pi n e ▸ h5,
    collectTypeDecl_loaderImports pi n e ▸ h6⟩

/-! ### Walk monotonicity without well-formedness -/

theorem stepRefEvent_pending_mono (env : WalkEnv) (s : WalkSt)
    (ev : RefEvent) : ∃ extra,
    (stepRefEvent env s ev).pendingTypes = s.pendingTypes ++ extra := by
  cases ev with
  | localRef n =>
    by_cases hn : n ∈ env.scopeTypes
    · simp only [stepRefEvent, if_pos hn]
      obtain ⟨extra, he, _⟩ :=
        queueType_append env.processed s.pendingTypes env.pkgPath n
      exact ⟨extra, he⟩
    · exact ⟨[], by simp [stepRefEvent, hn]⟩
  | selRef x sel =>
    cases hr : resolveExternalPath env s.imports x with
    | none => exact ⟨[], by simp [stepRefEvent, hr]⟩
    | some q =>
      simp only [stepRefEvent, hr]
      obtain ⟨extra, he, _⟩ :=
        queueType_append env.processed s.pendingTypes q sel
      exact ⟨extra, he⟩

theorem foldl_stepRefEvent_pending_mono (env : WalkEnv) :
    ∀ (evs : List RefEvent) (s : WalkSt), ∃ extra,
      (evs.foldl (stepRefEvent env) s).pendingTypes =
        s.pendingTypes ++ extra
  | [], s => ⟨[], by simp⟩
  | ev :: evs, s => by
    obtain ⟨e₁, h1⟩ := stepRefEvent_pending_mono env s ev
    obtain ⟨e₂, h2⟩ :=
      foldl_stepRefEvent_pending_mono env evs (stepRefEvent env s ev)
    exact ⟨e₁ ++ e₂, by rw [List.foldl_cons, h2, h1, List.append_assoc]⟩

theorem walkTypeForDeps_pending_mono (env : WalkEnv) (e : TypeExpr)
    (s : WalkSt) : ∃ extra,
    (walkTypeForDeps env e s).pendingTypes = s.pendingTypes ++ extra := by
  rw [walkTypeForDeps_eq_fold]
  exact foldl_stepRefEvent_pending_mono env (exprEvents e) s

/-! ### `extractType`: hypothesis-free facts -/

theorem extractType_ok_cases {world : World} {st : RState} {tr : TypeRef}
    {st₂ : RState} (hok : extractType world st tr = .ok st₂) :
    ∃ pi st₁ d ws₁,
      loadPackageInfo world st tr.packagePath = .ok (pi, st₁) ∧
      pi.typeDecls.find? (fun d => d.1 == tr.typeName) = some d ∧
      ws₁ = walkTypeForDeps
        (mkWalkEnv tr.packagePath (collectTypeDecl pi d.1 d.2)
          st₁.processedTypes)
        d.2 ⟨st₁.pendingTypes, (collectTypeDecl pi d.1 d.2).imports⟩ ∧
      st₂ = { st₁ with
                pendingTypes := ws₁.pendingTypes
                packages := assocSet st₁.packages tr.packagePath
                  { collectTypeDecl pi d.1 d.2 with imports := ws₁.imports } } := by
  unfold extractType at hok
  cases hload : loadPackageInfo world st tr.packagePath with
  | error e => rw [hload] at hok; cases hok
  | ok pr =>
    obtain ⟨pi, st₁⟩ := pr
    simp only [hload] at hok
    cases hfd : pi.typeDecls.find? (fun d => d.1 == tr.typeName) with
    | none =>
      simp only [hfd] at hok
      cases hok
    | some d =>
      simp only [hfd] at hok
      cases hok
      exact ⟨pi, st₁, d, _, rfl, hfd, rfl, rfl⟩

theorem extractType_processed {world : World} {st : RState} {tr : TypeRef}
    {st₂ : RState} (hok : extractType world st tr = .ok st₂) :
    st₂.processedTypes = st.processedTypes := by
  obtain ⟨pi, st₁, d, ws₁, hload, hfd, hws, rfl⟩ := extractType_ok_cases hok
  obtain ⟨_, hproc, _, _, _⟩ := loadPackageInfo_ok hload
  exact hproc

theorem extractType_pending_mono {world : World} {st : RState} {tr : TypeRef}
    {st₂ : RState} (hok : extractType world st tr = .ok st₂) :
    ∃ extra, st₂.pendingTypes = st.pendingTypes ++ extra := by
  obtain ⟨pi, st₁, d, ws₁, hload, hfd, hws, rfl⟩ := extractType_ok_cases hok
  obtain ⟨hpend, _, _, _, _⟩ := loadPackageInfo_ok hload
  obtain ⟨extra, he⟩ := walkTypeForDeps_pending_mono
    (mkWalkEnv tr.packagePath (collectTypeDecl pi d.1 d.2)
      st₁.processedTypes) d.2
    ⟨st₁.pendingTypes, (collectTypeDecl pi d.1 d.2).imports⟩
  refine ⟨extra, ?_⟩
  show ws₁.pendingTypes = st.pendingTypes ++ extra
  rw [hws, ← hpend]
  exact he

theorem extractType_hasDecl {world : World} {st : RState} {tr : TypeRef}
    {st₂ : RState} (hok : extractType world st tr = .ok st₂) (q : TypeRef) :
    hasDeclB st₂ q = (hasDeclB st q || decide (q = tr)) := by
  obtain ⟨pi, st₁, d, ws₁, hload, hfd, hws, hst⟩ := extractType_ok_cases hok
  obtain ⟨_, _, hfind, hother, _⟩ := loadPackageInfo_ok hload
  have hd1 : d.1 = tr.typeName := by
    simpa [beq_iff_eq] using List.find?_some hfd
  rw [← hasDeclB_load hload q]
  subst hst
  unfold hasDeclB
  by_cases hq : q.packagePath = tr.packagePath
  · simp only [hq, assocFind_assocSet_self, hfind, collectTypeDecl_decls]
    by_cases hqt : q.typeName = tr.typeName
    · have hqtr : q = tr := by cases q; cases tr; simp_all
      have hdec : decide (q = tr) = true := by simp [hqtr]
      rw [hdec, Bool.or_true, hqt, ← hd1]
      split
      · next hpres => exact hpres
      · next hpres =>
        have hnone : pi.decls.find? (fun x => x.1 == d.1) = none := by
          cases hff : pi.decls.find? (fun x => x.1 == d.1) with
          | none => rfl
          | some y => rw [hff] at hpres; simp at hpres
        rw [find?_append_of_none hnone]
        simp [List.find?_cons]
    · have hqtr : q ≠ tr := fun he => hqt (by rw [he])
      have hdec : decide (q = tr) = false := by simp [hqtr]
      rw [hdec, Bool.or_false]
      split
      · rfl
      · have hdq : (d.1 == q.typeName) = false := by
          simp only [beq_eq_false_iff_ne, ne_eq, hd1]
          exact fun he => hqt he.symm
        cases hff : pi.decls.find? (fun x => x.1 == q.typeName) with
        | some y => rw [find?_append_of_some hff]
        | none =>
          rw [find?_append_of_none hff]
          simp [List.find?_cons, hdq]
  · have hqtr : q ≠ tr := fun he => hq (by rw [he])
    have hdec : decide (q = tr) = false := by simp [hqtr]
    rw [hdec]
    simp only [assocFind_assocSet_ne _ _ _ _ hq, Bool.or_false]

theorem staticEq_setImports {pi : PkgInfo} {src : SrcPackage}
    (h : StaticEq pi src) (imps : List (String × String)) :
    StaticEq { pi with imports := imps } src := h

theorem find?_fst_none_not_mem {l : List (String × TypeExpr)} {n : String}
    (h : l.find? (fun d => d.1 == n) = none) : n ∉ l.map (·.1) := by
  intro hm
  obtain ⟨d, hd, hdn⟩ := List.mem_map.1 hm
  exact (List.find?_eq_none.1 h d hd) (by simpa [beq_iff_eq] using hdn)

theorem extractType_ok_props {world : World} {st : RState} {tr : TypeRef}
    {st₂ : RState} (hP : PkgInv world st)
    (hstd : isStdlib tr.packagePath = false)
    (hok : extractType world st tr = .ok st₂) :
    (∃ extra, st₂.pendingTypes = st.pendingTypes ++ extra ∧
      ∀ r ∈ extra, r ∈ succRefs world tr ∧
        trKeyMem st.processedTypes r = false) ∧
    ((st.pendingTypes.map trKey).Nodup → (st₂.pendingTypes.map trKey).Nodup) ∧
    (∀ r ∈ succRefs world tr,
      trKey r ∈ st₂.pendingTypes.map trKey ∨
        trKey r ∈ st.processedTypes.map trKey) ∧
    PkgInv world st₂ ∧
    (∀ p' pi', assocFind st₂.packages p' = some pi' →
      ∀ d' ∈ pi'.decls,
        (∃ pi₀, assocFind st.packages p' = some pi₀ ∧ d' ∈ pi₀.decls) ∨
        (p' = tr.packagePath ∧ d'.1 = tr.typeName)) := by
  obtain ⟨pi, st₁, d, ws₁, hload, hfd, hws, hst⟩ := extractType_ok_cases hok
  obtain ⟨hpend, hproc, hfind, hother, hcase⟩ := loadPackageInfo_ok hload
  have hd1 : d.1 = tr.typeName := by
    simpa [beq_iff_eq] using List.find?_some hfd
  have hdmem : d ∈ pi.typeDecls := List.mem_of_find?_eq_some hfd
  have hsrc : ∃ src, assocFind world tr.packagePath = some src ∧
      StaticEq pi src := by
    rcases hcase with ⟨hc, _⟩ | ⟨_, src, hw, hpi, _⟩
    · exact hP.pkgStatic _ _ hc
    · exact ⟨src, hw, hpi ▸ staticEq_mkPkgInfo src⟩
  obtain ⟨src, hwsrc, hse⟩ := hsrc
  have hpiOld : ∀ d' ∈ pi.decls,
      ∃ pi₀, assocFind st.packages tr.packagePath = some pi₀ ∧
        d' ∈ pi₀.decls := by
    rcases hcase with ⟨hc, _⟩ | ⟨_, _, _, hpi, _⟩
    · exact fun d' hd' => ⟨pi, hc, hd'⟩
    · intro d' hd'
      rw [hpi] at hd'
      simp [mkPkgInfo] at hd'
  have hpiDeclsSrc : ∀ d' ∈ pi.decls, d' ∈ src.typeDecls := by
    rcases hcase with ⟨hc, _⟩ | ⟨_, _, _, hpi, _⟩
    · exact hP.declsSrc _ _ hc src hwsrc
    · intro d' hd'
      rw [hpi] at hd'
      simp [mkPkgInfo] at hd'
  have hpiDeclsNodup : (pi.decls.map (·.1)).Nodup := by
    rcases hcase with ⟨hc, _⟩ | ⟨_, _, _, hpi, _⟩
    · exact hP.declsNodup _ _ hc
    · rw [hpi]; simp [mkPkgInfo]
  have himp : ImportsWf (mkWalkEnv tr.packagePath pi []) pi.imports := by
    rcases hcase with ⟨hc, _⟩ | ⟨_, _, _, hpi, _⟩
    · exact hP.impWf _ _ hc
    · intro pr hpr
      rw [hpi] at hpr
      simp [mkPkgInfo] at hpr
  have hse₁ : StaticEq (collectTypeDecl pi d.1 d.2) src :=
    collectTypeDecl_staticEq hse d.1 d.2
  have hdecl : declExprOf src tr.typeName = some d.2 := by
    unfold declExprOf
    rw [← hse.2.2.1, hfd]
    rfl
  have hsucc : succRefs world tr =
      (exprEvents d.2).filterMap (eventRef (srcWalkEnv tr.packagePath src)) :=
    succRefs_eq_of_decl hwsrc hdecl
  have himp₁ : ImportsWf
      (mkWalkEnv tr.packagePath (collectTypeDecl pi d.1 d.2)
        st₁.processedTypes)
      (collectTypeDecl pi d.1 d.2).imports := by
    rw [collectTypeDecl_imports]
    exact importsWf_congr
      (by simp [mkWalkEnv, collectTypeDecl_nameToPath])
      (by simp [mkWalkEnv, collectTypeDecl_loaderImports]) himp
  have hfold := walkTypeForDeps_eq_fold
    (mkWalkEnv tr.packagePath (collectTypeDecl pi d.1 d.2)
      st₁.processedTypes) d.2
    ⟨st₁.pendingTypes, (collectTypeDecl pi d.1 d.2).imports⟩
  obtain ⟨hpd, himpwf⟩ := foldl_stepRefEvent_spec (exprEvents d.2)
    ⟨st₁.pendingTypes, (collectTypeDecl pi d.1 d.2).imports⟩ himp₁
  have hws_pd : ws₁.pendingTypes = queueEvents
      (mkWalkEnv tr.packagePath (collectTypeDecl pi d.1 d.2)
        st₁.processedTypes)
      (exprEvents d.2) st₁.pendingTypes := by
    rw [hws, hfold]
    exact hpd
  have hws_imp : ImportsWf
      (mkWalkEnv tr.packagePath (collectTypeDecl pi d.1 d.2)
        st₁.processedTypes) ws₁.imports := by
    rw [hws, hfold]
    exact himpwf
  have hfm : (exprEvents d.2).filterMap
      (eventRef (mkWalkEnv tr.packagePath (collectTypeDecl pi d.1 d.2)
        st₁.processedTypes)) = succRefs world tr := by
    rw [hsucc]
    exact filterMap_eventRef_static hse₁ _ _
  have hpkg₂ : st₂.packages = assocSet st₁.packages tr.packagePath
      { collectTypeDecl pi d.1 d.2 with imports := ws₁.imports } := by
    rw [hst]
  have hpend₂ : st₂.pendingTypes = ws₁.pendingTypes := by rw [hst]
  refine ⟨?_, ?_, ?_, ?_, ?_⟩
  · -- pending extras
    obtain ⟨extra, he, hprops⟩ := queueEvents_append
      (mkWalkEnv tr.packagePath (collectTypeDecl pi d.1 d.2)
        st₁.processedTypes) (exprEvents d.2) st₁.pendingTypes
    refine ⟨extra, ?_, ?_⟩
    · rw [hpend₂, hws_pd, he, hpend]
    · intro r hr
      obtain ⟨hin, hkm⟩ := hprops r hr
      refine ⟨hfm ▸ hin, ?_⟩
      have : (mkWalkEnv tr.packagePath (collectTypeDecl pi d.1 d.2)
          st₁.processedTypes).processed = st.processedTypes := by
        simp [mkWalkEnv, hproc]
      rwa [this] at hkm
  · -- nodup preservation
    intro hnd
    rw [hpend₂, hws_pd]
    refine queueEvents_nodup _ _ _ ?_
    rwa [hpend]
  · -- coverage
    intro r hr
    have hin : r ∈ (exprEvents d.2).filterMap
        (eventRef (mkWalkEnv tr.packagePath (collectTypeDecl pi d.1 d.2)
          st₁.processedTypes)) := hfm ▸ hr
    have hcov := queueEvents_covered
      (mkWalkEnv tr.packagePath (collectTypeDecl pi d.1 d.2)
        st₁.processedTypes) (exprEvents d.2) st₁.pendingTypes r hin
    rcases hcov with hc | hc
    · left; rw [hpend₂, hws_pd]; exact hc
    · right
      have : (mkWalkEnv tr.packagePath (collectTypeDecl pi d.1 d.2)
          st₁.processedTypes).processed = st.processedTypes := by
        simp [mkWalkEnv, hproc]
      rwa [this] at hc
  · -- PkgInv st₂
    have hdecls₂ : ({ collectTypeDecl pi d.1 d.2 with
        imports := ws₁.imports } : PkgInfo).decls =
        if (pi.decls.find? (fun d' => d'.1 == d.1)).isSome then pi.decls
        else pi.decls ++ [(d.1, d.2)] := collectTypeDecl_decls pi d.1 d.2
    refine ⟨?_, ?_, ?_, ?_, ?_, ?_⟩
    · intro p' pi' hp'
      by_cases hpq : p' = tr.packagePath
      · subst hpq
        rw [hpkg₂, assocFind_assocSet_self] at hp'
        cases hp'
        exact ⟨src, hwsrc, staticEq_setImports hse₁ ws₁.imports⟩
      · rw [hpkg₂, assocFind_assocSet_ne _ _ _ _ hpq,
          hother p' hpq] at hp'
        exact hP.pkgStatic p' pi' hp'
    · intro p' pi' hp'
      by_cases hpq : p' = tr.packagePath
      · subst hpq; exact hstd
      · rw [hpkg₂, assocFind_assocSet_ne _ _ _ _ hpq,
          hother p' hpq] at hp'
        exact hP.pkgNonStd p' pi' hp'
    · intro p' pi' hp'
      by_cases hpq : p' = tr.packagePath
      · subst hpq
        rw [hpkg₂, assocFind_assocSet_self] at hp'
        cases hp'
        rw [hdecls₂]
        split
        · next hpres =>
          intro hnil
          rw [hnil] at hpres
          simp at hpres
        · intro hnil
          cases List.append_eq_nil.1 hnil
          simp_all
      · rw [hpkg₂, assocFind_assocSet_ne _ _ _ _ hpq,
          hother p' hpq] at hp'
        exact hP.pkgDecls p' pi' hp'
    · intro p' pi' hp' src' hsrc' d' hd'
      by_cases hpq : p' = tr.packagePath
      · subst hpq
        rw [hpkg₂, assocFind_assocSet_self] at hp'
        cases hp'
        have hsrceq : src' = src := by
          rw [hwsrc] at hsrc'
          exact (Option.some.inj hsrc').symm
        rw [hsrceq]
        rw [hdecls₂] at hd'
        have hdsrc : d ∈ SrcPackage.typeDecls src := by
          rw [← hse.2.2.1]; exact hdmem
        split at hd'
        · exact hpiDeclsSrc d' hd'
        · rcases List.mem_append.1 hd' with hm | hm
          · exact hpiDeclsSrc d' hm
          · have : d' = (d.1, d.2) := by simpa using hm
            rw [this]
            exact hdsrc
      · rw [hpkg₂, assocFind_assocSet_ne _ _ _ _ hpq,
          hother p' hpq] at hp'
        exact hP.declsSrc p' pi' hp' src' hsrc' d' hd'
    · intro p' pi' hp'
      by_cases hpq : p' = tr.packagePath
      · subst hpq
        rw [hpkg₂, assocFind_assocSet_self] at hp'
        cases hp'
        rw [hdecls₂]
        split
        · exact hpiDeclsNodup
        · next hpres =>
          have hnone : pi.decls.find? (fun d' => d'.1 == d.1) = none := by
            cases hff : pi.decls.find? (fun d' => d'.1 == d.1) with
            | none => rfl
            | some y => rw [hff] at hpres; simp at hpres
          rw [List.map_append]
          simp only [List.map_cons, List.map_nil]
          rw [List.nodup_append]
          refine ⟨hpiDeclsNodup, List.nodup_singleton _, ?_⟩
          intro a ha
          simp only [List.mem_singleton]
          intro hae
          rw [hae] at ha
          exact find?_fst_none_not_mem hnone ha
      · rw [hpkg₂, assocFind_assocSet_ne _ _ _ _ hpq,
          hother p' hpq] at hp'
        exact hP.declsNodup p' pi' hp'
    · intro p' pi' hp'
      by_cases hpq : p' = tr.packagePath
      · subst hpq
        rw [hpkg₂, assocFind_assocSet_self] at hp'
        cases hp'
        show ImportsWf _ ws₁.imports
        refine importsWf_congr ?_ ?_ hws_imp
        · simp [mkWalkEnv, collectTypeDecl_nameToPath]
        · simp [mkWalkEnv, collectTypeDecl_loaderImports]
      · rw [hpkg₂, assocFind_assocSet_ne _ _ _ _ hpq,
          hother p' hpq] at hp'
        exact hP.impWf p' pi' hp'
  · -- declaration origin
    intro p' pi' hp' d' hd'
    by_cases hpq : p' = tr.packagePath
    · subst hpq
      rw [hpkg₂, assocFind_assocSet_self] at hp'
      cases hp'
      rw [collectTypeDecl_decls] at hd'
      split at hd'
      · exact Or.inl (hpiOld d' hd')
      · rcases List.mem_append.1 hd' with hm | hm
        · exact Or.inl (hpiOld d' hm)
        · have : d' = (d.1, d.2) := by simpa using hm
          rw [this]
          exact Or.inr ⟨rfl, hd1⟩
    · rw [hpkg₂, assocFind_assocSet_ne _ _ _ _ hpq,
        hother p' hpq] at hp'
      exact Or.inl ⟨pi', hp', hd'⟩

/-! ### Measure helpers -/

theorem length_filter_mono {α : Type} (l : List α) (p q : α → Bool)
    (h : ∀ a, p a = true → q a = true) :
    (l.filter p).length ≤ (l.filter q).length := by
  induction l with
  | nil => simp
  | cons a l ih =>
    cases hpa : p a with
    | true =>
      rw [List.filter_cons_of_pos hpa,
        List.filter_cons_of_pos (h a hpa)]
      simpa using ih
    | false =>
      rw [List.filter_cons_of_neg (by simp [hpa])]
      cases hqa : q a with
      | true =>
        rw [List.filter_cons_of_pos hqa]
        exact le_trans ih (by simp)
      | false =>
        rw [List.filter_cons_of_neg (by simp [hqa])]
        exact ih

theorem unprocessedCount_mono {world : World} {root : TypeRef}
    {st st' : RState} {tr : TypeRef}
    (hpr : st'.processedTypes = st.processedTypes ++ [tr]) :
    unprocessedCount world root st' ≤ unprocessedCount world root st := by
  unfold unprocessedCount
  refine length_filter_mono _ _ _ ?_
  intro k hk
  rw [hpr] at hk
  simp only [List.any_append, Bool.not_or, Bool.and_eq_true] at hk
  simp [hk.1]

theorem unprocessedCount_strict {world : World} {root : TypeRef}
    {st st' : RState} {tr : TypeRef}
    (hpr : st'.processedTypes = st.processedTypes ++ [tr])
    (hkU : trKey tr ∈ refUniverse world root)
    (hkun : (st.processedTypes.any fun x => trKey x == trKey tr) = false) :
    unprocessedCount world root st' + 1 ≤ unprocessedCount world root st := by
  unfold unprocessedCount
  have hsplit : ∀ k, (!((st.processedTypes ++ [tr]).any
        fun x => trKey x == k)) =
      ((!(st.processedTypes.any fun x => trKey x == k)) &&
        !(trKey tr == k)) := by
    intro k
    simp [List.any_append, Bool.not_or]
  have hfeq : (refUniverse world root).filter
        (fun k => !(st'.processedTypes.any fun x => trKey x == k)) =
      ((refUniverse world root).filter
        (fun k => !(st.processedTypes.any fun x => trKey x == k))).filter
        (fun k => !(trKey tr == k)) := by
    rw [List.filter_filter]
    refine List.filter_congr ?_
    intro k _
    rw [hpr, hsplit k, Bool.and_comm]
  rw [hfeq]
  have hmem : trKey tr ∈ (refUniverse world root).filter
      (fun k => !(st.processedTypes.any fun x => trKey x == k)) := by
    rw [List.mem_filter]
    refine ⟨hkU, ?_⟩
    have : (st.processedTypes.any fun x => trKey x == trKey tr) = false := hkun
    simp [this]
  generalize hL : (refUniverse world root).filter
      (fun k => !(st.processedTypes.any fun x => trKey x == k)) = L
  rw [hL] at hmem
  have hpart : L.length =
      (L.filter fun k => !(trKey tr == k)).length +
        (L.filter fun k => !(!(trKey tr == k))).length :=
    List.length_eq_length_filter_add _
  have hpos : 0 < (L.filter fun k => !(!(trKey tr == k))).length := by
    refine List.length_pos.2 ?_
    intro hnil
    have : trKey tr ∈ L.filter fun k => !(!(trKey tr == k)) := by
      rw [List.mem_filter]
      exact ⟨hmem, by simp⟩
    rw [hnil] at this
    cases this
  omega

theorem pending_length_le_univ {world : World} {root : TypeRef}
    {st : RState} (hnd : (st.pendingTypes.map trKey).Nodup)
    (hu : ∀ tr ∈ st.pendingTypes, tr ∈ worldRefs world root) :
    st.pendingTypes.length ≤ (refUniverse world root).length := by
  have hsub : st.pendingTypes.map trKey ⊆ refUniverse world root := by
    intro k hk
    obtain ⟨x, hx, hxk⟩ := List.mem_map.1 hk
    unfold refUniverse
    rw [List.mem_dedup]
    exact hxk ▸ List.mem_map_of_mem trKey (hu x hx)
  have := (List.subperm_of_subset hnd hsub).length_le
  simpa using this

theorem key_mem_univ {world : World} {root : TypeRef} {tr : TypeRef}
    (h : tr ∈ worldRefs world root) :
    trKey tr ∈ refUniverse world root := by
  unfold refUniverse
  rw [List.mem_dedup]
  exact List.mem_map_of_mem trKey h

/-! ### Driver-step case lemmas -/

theorem stepA_props {world : World} {root : TypeRef} {st : RState}
    {tr : TypeRef} {rest : List TypeRef}
    (hInv : Inv world root st) (hp : st.pendingTypes = tr :: rest)
    (hdup : trKeyMem st.processedTypes tr = true) :
    Inv world root { st with pendingTypes := rest } ∧
    (∀ k, KeyInState st k →
      KeyInState { st with pendingTypes := rest } k) ∧
    stMeasure world root { st with pendingTypes := rest } <
      stMeasure world root st := by
  have hmono : ∀ k, KeyInState st k →
      KeyInState { st with pendingTypes := rest } k := by
    intro k hk
    rcases hk with hk | hk
    · rw [hp] at hk
      simp only [List.map_cons, List.mem_cons] at hk
      rcases hk with rfl | hk

      · exact Or.inr (trKeyMem_key_iff.1 hdup)
      · exact Or.inl hk
    · exact Or.inr hk
  have hrest : ∀ tr' ∈ rest, tr' ∈ st.pendingTypes := by
    intro tr' h
    rw [hp]
    exact List.mem_cons_of_mem tr h
  refine ⟨⟨⟨hInv.pkg.pkgStatic, hInv.pkg.pkgNonStd, hInv.pkg.pkgDecls,
      hInv.pkg.declsSrc, hInv.pkg.declsNodup, hInv.pkg.impWf⟩,
      ?_, ?_, ?_, ?_, ?_, hInv.procNames, hInv.procReach, ?_,
      hInv.procDecl, hInv.declProc⟩, hmono, ?_⟩
  · have := hInv.pendNodup
    rw [hp] at this
    simp only [List.map_cons] at this
    exact this.of_cons
  · exact fun tr' h => hInv.pendNames tr' (hrest tr' h)
  · exact fun tr' h => hInv.pendUniv tr' (hrest tr' h)
  · exact fun tr' h => hInv.pendReach tr' (hrest tr' h)
  · exact fun tr' h hm => hInv.pendDual tr' (hrest tr' h) hm
  · exact fun tr' h hstd r hr => hmono _ (hInv.procClosed tr' h hstd r hr)
  · have hu : unprocessedCount world root { st with pendingTypes := rest } =
        unprocessedCount world root st := rfl
    unfold stMeasure
    rw [hu, hp]
    simp

theorem stepB_props {world : World} {root : TypeRef} {st : RState}
    {tr : TypeRef} {rest : List TypeRef} (hwf : WFWorld world root)
    (hInv : Inv world root st) (hp : st.pendingTypes = tr :: rest)
    (hdup : trKeyMem st.processedTypes tr = false)
    (hstd : isStdlib tr.packagePath = true) :
    Inv world root { st with pendingTypes := rest
                             processedTypes := st.processedTypes ++ [tr] } ∧
    (∀ k, KeyInState st k →
      KeyInState { st with pendingTypes := rest
                           processedTypes := st.processedTypes ++ [tr] } k) ∧
    stMeasure world root { st with pendingTypes := rest
                                   processedTypes :=
                                     st.processedTypes ++ [tr] } <
      stMeasure world root st := by
  have htrmem : tr ∈ st.pendingTypes := by rw [hp]; exact List.mem_cons_self _ _
  have hrest : ∀ tr' ∈ rest, tr' ∈ st.pendingTypes := by
    intro tr' h
    rw [hp]
    exact List.mem_cons_of_mem tr h
  have hmono : ∀ k, KeyInState st k →
      KeyInState { st with pendingTypes := rest
                           processedTypes := st.processedTypes ++ [tr] } k := by
    intro k hk
    rcases hk with hk | hk
    · rw [hp] at hk
      simp only [List.map_cons, List.mem_cons] at hk
      rcases hk with rfl | hk
      · right
        simp [List.map_append]
      · exact Or.inl hk
    · right
      rw [List.map_append]
      exact List.mem_append.2 (Or.inl hk)
  have hkeytr : trKey tr ∉ (rest.map trKey) := by
    have := hInv.pendNodup
    rw [hp] at this
    simp only [List.map_cons, List.nodup_cons] at this
    exact this.1
  refine ⟨⟨⟨hInv.pkg.pkgStatic, hInv.pkg.pkgNonStd, hInv.pkg.pkgDecls,
      hInv.pkg.declsSrc, hInv.pkg.declsNodup, hInv.pkg.impWf⟩,
      ?_, ?_, ?_, ?_, ?_, ?_, ?_, ?_, ?_, ?_⟩, hmono, ?_⟩
  · have := hInv.pendNodup
    rw [hp] at this
    simp only [List.map_cons] at this
    exact this.of_cons
  · exact fun tr' h => hInv.pendNames tr' (hrest tr' h)
  · exact fun tr' h => hInv.pendUniv tr' (hrest tr' h)
  · exact fun tr' h => hInv.pendReach tr' (hrest tr' h)
  · -- pendDual
    intro tr' h hm
    rw [trKeyMem_append] at hm
    rcases Bool.or_eq_true_iff.1 hm with hm | hm
    · exact hInv.pendDual tr' (hrest tr' h) hm
    · exfalso
      have hkk : trKey tr = trKey tr' := by
        rcases trKeyMem_iff.1 hm with ⟨x, hx, he⟩
        simp only [List.mem_singleton] at hx
        rw [← hx]
        exact he
      exact hkeytr (hkk ▸ List.mem_map_of_mem trKey h)
  · -- procNames
    intro tr' h
    rcases List.mem_append.1 h with h | h
    · exact hInv.procNames tr' h
    · have : tr' = tr := by simpa using h
      rw [this]
      exact hInv.pendNames tr htrmem
  · -- procReach
    intro tr' h
    rcases List.mem_append.1 h with h | h
    · exact hInv.procReach tr' h
    · have : tr' = tr := by simpa using h
      rw [this]
      exact hInv.pendReach tr htrmem
  · -- procClosed
    intro tr' h hstd' r hr
    rcases List.mem_append.1 h with h | h
    · exact hmono _ (hInv.procClosed tr' h hstd' r hr)
    · exfalso
      have : tr' = tr := by simpa using h
      rw [this, hstd] at hstd'
      cases hstd'
  · -- procDecl
    intro tr' h hstd'
    rcases List.mem_append.1 h with h | h
    · exact hInv.procDecl tr' h hstd'
    · exfalso
      have : tr' = tr := by simpa using h
      rw [this, hstd] at hstd'
      cases hstd'
  · -- declProc
    intro p pi h d hd
    rw [List.map_append]
    exact List.mem_append.2 (Or.inl (hInv.declProc p pi h d hd))
  · -- measure
    have hle : unprocessedCount world root
        { st with pendingTypes := rest
                  processedTypes := st.processedTypes ++ [tr] } ≤
        unprocessedCount world root st :=
      unprocessedCount_mono rfl
    unfold stMeasure
    rw [hp]
    simp only [List.length_cons]
    have := Nat.mul_le_mul_right
      (2 + (refUniverse world root).length) hle
    omega

theorem stepC_props {world : World} {root : TypeRef} {st st₂ : RState}
    {tr : TypeRef} {rest : List TypeRef} (hwf : WFWorld world root)
    (hInv : Inv world root st) (hp : st.pendingTypes = tr :: rest)
    (hdup : trKeyMem st.processedTypes tr = false)
    (hstd : isStdlib tr.packagePath = false)
    (hex : extractType world { st with pendingTypes := rest } tr = .ok st₂) :
    Inv world root
      { st₂ with processedTypes := st₂.processedTypes ++ [tr] } ∧
    (∀ k, KeyInState st k →
      KeyInState { st₂ with processedTypes := st₂.processedTypes ++ [tr] } k) ∧
    (∀ q, hasDeclB st q = true →
      hasDeclB { st₂ with processedTypes := st₂.processedTypes ++ [tr] } q
        = true) ∧
    stMeasure world root
      { st₂ with processedTypes := st₂.processedTypes ++ [tr] } <
      stMeasure world root st := by
  have htrmem : tr ∈ st.pendingTypes := by
    rw [hp]; exact List.mem_cons_self _ _
  have hrest : ∀ tr' ∈ rest, tr' ∈ st.pendingTypes := by
    intro tr' h
    rw [hp]
    exact List.mem_cons_of_mem tr h
  have htrName : NameOk tr.typeName := hInv.pendNames tr htrmem
  have htrReach : ReachableRun world root tr := hInv.pendReach tr htrmem
  have htrUniv : tr ∈ worldRefs world root := hInv.pendUniv tr htrmem
  have hrestNodup : (rest.map trKey).Nodup := by
    have := hInv.pendNodup
    rw [hp] at this
    simp only [List.map_cons, List.nodup_cons] at this
    exact this.2
  have hP₁ : PkgInv world { st with pendingTypes := rest } :=
    ⟨hInv.pkg.pkgStatic, hInv.pkg.pkgNonStd, hInv.pkg.pkgDecls,
      hInv.pkg.declsSrc, hInv.pkg.declsNodup, hInv.pkg.impWf⟩
  obtain ⟨⟨extra, hpe, hextra⟩, hnd, hcov, hPkg₂, horigin⟩ :=
    extractType_ok_props hP₁ hstd hex
  have hpe' : st₂.pendingTypes = rest ++ extra := hpe
  have hextra' : ∀ r ∈ extra, r ∈ succRefs world tr ∧
      trKeyMem st.processedTypes r = false := hextra
  have hproc₂0 := extractType_processed hex
  have hproc₂ : st₂.processedTypes = st.processedTypes := hproc₂0
  have hdecl0 := extractType_hasDecl hex
  have hdecl : ∀ q, hasDeclB st₂ q =
      (hasDeclB st q || decide (q = tr)) := fun q => hdecl0 q
  have hdecl' : ∀ q, hasDeclB
      { st₂ with processedTypes := st₂.processedTypes ++ [tr] } q =
      hasDeclB st₂ q := fun _ => rfl
  have hdeclTr : hasDeclB st₂ tr = true := by
    rw [hdecl tr]
    simp
  have hpendNames' : ∀ r ∈ rest ++ extra, NameOk r.typeName := by
    intro r hr
    rcases List.mem_append.1 hr with hr | hr
    · exact hInv.pendNames r (hrest r hr)
    · exact succRefs_nameOk hwf (hextra' r hr).1
  have hpendUniv' : ∀ r ∈ rest ++ extra, r ∈ worldRefs world root := by
    intro r hr
    rcases List.mem_append.1 hr with hr | hr
    · exact hInv.pendUniv r (hrest r hr)
    · exact succRefs_sub_worldRefs (hextra' r hr).1
  have hpendReach' : ∀ r ∈ rest ++ extra, ReachableRun world root r := by
    intro r hr
    rcases List.mem_append.1 hr with hr | hr
    · exact hInv.pendReach r (hrest r hr)
    · exact Relation.ReflTransGen.tail htrReach ⟨hstd, (hextra' r hr).1⟩
  have hmono : ∀ k, KeyInState st k →
      KeyInState { st₂ with
        processedTypes := st₂.processedTypes ++ [tr] } k := by
    intro k hk
    rcases hk with hk | hk
    · rw [hp] at hk
      simp only [List.map_cons, List.mem_cons] at hk
      rcases hk with rfl | hk
      · right
        simp [List.map_append]
      · left
        show k ∈ st₂.pendingTypes.map trKey
        rw [hpe', List.map_append]
        exact List.mem_append.2 (Or.inl hk)
    · right
      show k ∈ (st₂.processedTypes ++ [tr]).map trKey
      rw [hproc₂, List.map_append]
      exact List.mem_append.2 (Or.inl hk)
  have hdeclmono : ∀ q, hasDeclB st q = true →
      hasDeclB { st₂ with
        processedTypes := st₂.processedTypes ++ [tr] } q = true := by
    intro q hq
    rw [hdecl' q, hdecl q, hq]
    rfl
  refine ⟨⟨⟨hPkg₂.pkgStatic, hPkg₂.pkgNonStd, hPkg₂.pkgDecls,
      hPkg₂.declsSrc, hPkg₂.declsNodup, hPkg₂.impWf⟩,
      ?_, ?_, ?_, ?_, ?_, ?_, ?_, ?_, ?_, ?_⟩, hmono, hdeclmono, ?_⟩
  · -- pendNodup
    show (st₂.pendingTypes.map trKey).Nodup
    exact hnd hrestNodup
  · -- pendNames
    intro r hr
    refine hpendNames' r ?_
    rw [← hpe']
    exact hr
  · -- pendUniv
    intro r hr
    refine hpendUniv' r ?_
    rw [← hpe']
    exact hr
  · -- pendReach
    intro r hr
    refine hpendReach' r ?_
    rw [← hpe']
    exact hr
  · -- pendDual
    intro r hr hm
    have hr' : r ∈ rest ++ extra := by rw [← hpe']; exact hr
    have hm' : trKeyMem (st₂.processedTypes ++ [tr]) r = true := hm
    rw [trKeyMem_append] at hm'
    rcases Bool.or_eq_true_iff.1 hm' with hm' | hm'
    · rw [hproc₂] at hm'
      rcases List.mem_append.1 hr' with hrr | hrr
      · exact hdeclmono r (hInv.pendDual r (hrest r hrr) hm')
      · rw [(hextra' r hrr).2] at hm'
        cases hm'
    · have hkk : trKey tr = trKey r := by
        rcases trKeyMem_iff.1 hm' with ⟨x, hx, he⟩
        simp only [List.mem_singleton] at hx
        rw [← hx]
        exact he
      have hre : r = tr := (trKey_inj htrName (hpendNames' r hr')
        hkk).symm
      rw [hre, hdecl' tr]
      exact hdeclTr
  · -- procNames
    intro tr' h
    rcases List.mem_append.1 h with h | h
    · rw [hproc₂] at h
      exact hInv.procNames tr' h
    · have : tr' = tr := by simpa using h
      rw [this]
      exact htrName
  · -- procReach
    intro tr' h
    rcases List.mem_append.1 h with h | h
    · rw [hproc₂] at h
      exact hInv.procReach tr' h
    · have : tr' = tr := by simpa using h
      rw [this]
      exact htrReach
  · -- procClosed
    intro tr' h hstd' r hr
    rcases List.mem_append.1 h with h | h
    · rw [hproc₂] at h
      exact hmono _ (hInv.procClosed tr' h hstd' r hr)
    · have htr' : tr' = tr := by simpa using h
      rw [htr'] at hr
      rcases hcov r hr with hc | hc
      · left
        exact hc
      · right
        show trKey r ∈ (st₂.processedTypes ++ [tr]).map trKey
        rw [List.map_append]
        refine List.mem_append.2 (Or.inl ?_)
        rw [hproc₂]
        exact hc
  · -- procDecl
    intro tr' h hstd'
    rcases List.mem_append.1 h with h | h
    · rw [hproc₂] at h
      exact hdeclmono tr' (hInv.procDecl tr' h hstd')
    · have : tr' = tr := by simpa using h
      rw [this, hdecl' tr]
      exact hdeclTr
  · -- declProc
    intro p pi h d hd
    have h' : assocFind st₂.packages p = some pi := h
    rcases horigin p pi h' d hd with ⟨pi₀, hfind₀, hd₀⟩ | ⟨hpp, hdn⟩
    · have hkey := hInv.declProc p pi₀ hfind₀ d hd₀
      show trKey ⟨p, d.1⟩ ∈ (st₂.processedTypes ++ [tr]).map trKey
      rw [List.map_append]
      refine List.mem_append.2 (Or.inl ?_)
      rw [hproc₂]
      exact hkey
    · have : (⟨p, d.1⟩ : TypeRef) = tr := by
        cases tr
        simp_all
      show trKey ⟨p, d.1⟩ ∈ (st₂.processedTypes ++ [tr]).map trKey
      rw [this, List.map_append]
      simp
  · -- measure
    have hnd' : (st₂.pendingTypes.map trKey).Nodup := hnd hrestNodup
    have hlen : st₂.pendingTypes.length ≤
        (refUniverse world root).length := by
      refine pending_length_le_univ hnd' ?_
      intro r hr
      refine hpendUniv' r ?_
      rw [← hpe']
      exact hr
    have hcnt : unprocessedCount world root
        { st₂ with processedTypes := st₂.processedTypes ++ [tr] } + 1 ≤
        unprocessedCount world root st := by
      refine unprocessedCount_strict ?_ (key_mem_univ htrUniv) hdup
      show st₂.processedTypes ++ [tr] = st.processedTypes ++ [tr]
      rw [hproc₂]
    unfold stMeasure
    rw [hp]
    simp only [List.length_cons]
    have hmul := Nat.mul_le_mul_right
      (2 + (refUniverse world root).length) hcnt
    rw [Nat.add_mul, Nat.one_mul] at hmul
    omega

/-! ### Assembling the driver step -/

theorem driverStep_done {world : World} {st st₁ : RState}
    (h : driverStep world st = .done st₁) :
    st₁ = st ∧ st.pendingTypes = [] := by
  unfold driverStep at h
  cases hp : st.pendingTypes with
  | nil =>
    simp only [hp] at h
    cases h
    exact ⟨rfl, rfl⟩
  | cons tr rest =>
    simp only [hp] at h
    by_cases hdup : trKeyMem st.processedTypes tr = true
    · simp [hdup] at h
    · simp only [Bool.not_eq_true] at hdup
      by_cases hstd : isStdlib tr.packagePath = true
      · simp [hdup, hstd] at h
      · simp only [Bool.not_eq_true] at hstd
        cases hex : extractType world { st with pendingTypes := rest } tr with
        | error e => simp [hdup, hstd, hex] at h
        | ok st₂ => simp [hdup, hstd, hex] at h

theorem loadPackageInfo_no_fail {world : World} {st : RState} {p : String}
    {src : SrcPackage} (hsrc : assocFind world p = some src) :
    ∃ pi st₁, loadPackageInfo world st p = .ok (pi, st₁) := by
  unfold loadPackageInfo
  cases hc : assocFind st.packages p with
  | some pi => exact ⟨pi, st, rfl⟩
  | none =>
    rw [hsrc]
    exact ⟨_, _, rfl⟩

theorem extractType_succeeds {world : World} {st : RState} {tr : TypeRef}
    {src : SrcPackage} (hP : PkgInv world st)
    (hsrc : assocFind world tr.packagePath = some src)
    (hdecl : (declExprOf src tr.typeName).isSome = true) :
    ∃ st₂, extractType world st tr = .ok st₂ := by
  obtain ⟨pi, st₁, hload⟩ := loadPackageInfo_no_fail hsrc
  obtain ⟨_, _, hfind, _, hcase⟩ := loadPackageInfo_ok hload
  have hse : StaticEq pi src := by
    rcases hcase with ⟨hc, _⟩ | ⟨_, src', hw, hpi, _⟩
    · obtain ⟨src', hw', hse'⟩ := hP.pkgStatic _ _ hc
      have : src' = src := by
        rw [hsrc] at hw'
        exact (Option.some.inj hw').symm
      rwa [this] at hse'
    · have : src' = src := by
        rw [hsrc] at hw
        exact (Option.some.inj hw).symm
      rw [hpi, this]
      exact staticEq_mkPkgInfo src
  have hfd : (pi.typeDecls.find? (fun d => d.1 == tr.typeName)).isSome
      = true := by
    rw [hse.2.2.1]
    unfold declExprOf at hdecl
    cases hf : SrcPackage.typeDecls src |>.find?
        (fun d => d.1 == tr.typeName) with
    | none => rw [hf] at hdecl; simp at hdecl
    | some d => simp
  unfold extractType
  simp only [hload]
  cases hf : pi.typeDecls.find? (fun d => d.1 == tr.typeName) with
  | none => rw [hf] at hfd; simp at hfd
  | some d =>
    simp only [hf]
    exact ⟨_, rfl⟩

theorem driverStep_no_fail {world : World} {root : TypeRef} {st : RState}
    (hInv : Inv world root st) (hres : ResolvesAll world root)
    {e : RewriteError} (hstep : driverStep world st = .fail e) : False := by
  unfold driverStep at hstep
  cases hp : st.pendingTypes with
  | nil =>
    simp only [hp] at hstep
    cases hstep
  | cons tr rest =>
    simp only [hp] at hstep
    by_cases hdup : trKeyMem st.processedTypes tr = true
    · simp [hdup] at hstep
    · simp only [Bool.not_eq_true] at hdup
      by_cases hstd : isStdlib tr.packagePath = true
      · simp [hdup, hstd] at hstep
      · simp only [Bool.not_eq_true] at hstd
        have htrmem : tr ∈ st.pendingTypes := by
          rw [hp]; exact List.mem_cons_self _ _
        obtain ⟨src, hsrc, hd⟩ :=
          hres tr (hInv.pendReach tr htrmem) hstd
        have hP₁ : PkgInv world { st with pendingTypes := rest } :=
          ⟨hInv.pkg.pkgStatic, hInv.pkg.pkgNonStd, hInv.pkg.pkgDecls,
            hInv.pkg.declsSrc, hInv.pkg.declsNodup, hInv.pkg.impWf⟩
        obtain ⟨st₂, hok⟩ := extractType_succeeds hP₁ hsrc hd
        simp [hdup, hstd, hok] at hstep

theorem driverStep_next_props {world : World} {root : TypeRef}
    {st st' : RState} (hwf : WFWorld world root) (hInv : Inv world root st)
    (hstep : driverStep world st = .next st') :
    Inv world root st' ∧
    (∀ k, KeyInState st k → KeyInState st' k) ∧
    (∀ q, hasDeclB st q = true → hasDeclB st' q = true) ∧
    stMeasure world root st' < stMeasure world root st := by
  unfold driverStep at hstep
  cases hp : st.pendingTypes with
  | nil =>
    simp only [hp] at hstep
    cases hstep
  | cons tr rest =>
    simp only [hp] at hstep
    by_cases hdup : trKeyMem st.processedTypes tr = true
    · simp only [hdup, if_true] at hstep
      have hstep' : ({ st with pendingTypes := rest } : RState) = st' := by
        cases hstep
        rfl
      subst hstep'
      obtain ⟨h1, h2, h3⟩ := stepA_props hInv hp hdup
      exact ⟨h1, h2, fun _ h => h, h3⟩
    · simp only [Bool.not_eq_true] at hdup
      by_cases hstd : isStdlib tr.packagePath = true
      · simp only [hdup, hstd, if_true, Bool.false_eq_true, if_false]
          at hstep
        have hstep' :
            ({ st with pendingTypes := rest, processedTypes := st.processedTypes ++ [tr] } : RState)
            = st' := by
          cases hstep
          rfl
        subst hstep'
        obtain ⟨h1, h2, h3⟩ := stepB_props hwf hInv hp hdup hstd
        exact ⟨h1, h2, fun _ h => h, h3⟩
      · simp only [Bool.not_eq_true] at hstd
        cases hex : extractType world { st with pendingTypes := rest } tr with
        | error e => simp [hdup, hstd, hex] at hstep
        | ok st₂ =>
          simp only [hdup, hstd, hex, Bool.false_eq_true, if_false]
            at hstep
          have hstep' : ({ st₂ with
              processedTypes := st₂.processedTypes ++ [tr] } : RState)
              = st' := by
            cases hstep
            rfl
          subst hstep'
          exact stepC_props hwf hInv hp hdup hstd hex

/-! ### The fueled loop -/

theorem runLoop_props {world : World} {root : TypeRef}
    (hwf : WFWorld world root) (hres : ResolvesAll world root) :
    ∀ (fuel : Nat) (st : RState), Inv world root st →
      stMeasure world root st < fuel →
      ∃ st', runLoop world fuel st = .ok st' ∧ Inv world root st' ∧
        st'.pendingTypes = [] ∧
        (∀ k, KeyInState st k → KeyInState st' k) ∧
        (∀ q, hasDeclB st q = true → hasDeclB st' q = true) := by
  intro fuel
  induction fuel with
  | zero => intro st _ hm; cases hm
  | succ n ih =>
    intro st hInv hm
    cases hstep : driverStep world st with
    | done st₁ =>
      obtain ⟨heq, hnil⟩ := driverStep_done hstep
      subst heq
      exact ⟨st₁, by simp [runLoop, hstep], hInv, hnil,
        fun _ h => h, fun _ h => h⟩
    | next st₁ =>
      obtain ⟨hInv₁, hkeys, hdecls, hlt⟩ :=
        driverStep_next_props hwf hInv hstep
      obtain ⟨st', hrun, hInv', hnil, hkeys', hdecls'⟩ :=
        ih st₁ hInv₁ (by omega)
      exact ⟨st', by simp [runLoop, hstep, hrun],
        hInv', hnil, fun k hk => hkeys' k (hkeys k hk),
        fun q hq => hdecls' q (hdecls q hq)⟩
    | fail e => exact absurd hstep (fun h => driverStep_no_fail hInv hres h)

/-! ### The initial state satisfies the invariant -/

theorem initInv {world : World} {cfg : RConfig}
    (hwf : WFWorld world (rootRef cfg)) :
    Inv world (rootRef cfg) (initState cfg) := by
  refine ⟨⟨?_, ?_, ?_, ?_, ?_, ?_⟩, ?_, ?_, ?_, ?_, ?_, ?_, ?_, ?_, ?_, ?_⟩
  · intro p pi h
    simp [initState, assocFind] at h
  · intro p pi h
    simp [initState, assocFind] at h
  · intro p pi h
    simp [initState, assocFind] at h
  · intro p pi h
    simp [initState, assocFind] at h
  · intro p pi h
    simp [initState, assocFind] at h
  · intro p pi h
    simp [initState, assocFind] at h
  · simp [initState]
  · intro tr htr
    rw [show (initState cfg).pendingTypes = [rootRef cfg] from rfl,
      List.mem_singleton] at htr
    subst htr
    exact hwf.rootOk
  · intro tr htr
    rw [show (initState cfg).pendingTypes = [rootRef cfg] from rfl,
      List.mem_singleton] at htr
    subst htr
    exact root_mem_worldRefs world (rootRef cfg)
  · intro tr htr
    rw [show (initState cfg).pendingTypes = [rootRef cfg] from rfl,
      List.mem_singleton] at htr
    subst htr
    exact Relation.ReflTransGen.refl
  · intro tr htr hmem
    simp [initState, trKeyMem] at hmem
  · intro tr htr
    simp [initState] at htr
  · intro tr htr
    simp [initState] at htr
  · intro tr htr
    simp [initState] at htr
  · intro tr htr
    simp [initState] at htr
  · intro p pi h
    simp [initState, assocFind] at h

theorem stMeasure_init_lt {world : World} {cfg : RConfig} :
    stMeasure world (rootRef cfg) (initState cfg) <
      loopFuel world (rootRef cfg) := by
  have h2 : unprocessedCount world (rootRef cfg) (initState cfg) ≤
      (refUniverse world (rootRef cfg)).length := by
    unfold unprocessedCount
    exact List.length_filter_le _ _
  have h3 := Nat.mul_le_mul_right
    (2 + (refUniverse world (rootRef cfg)).length) h2
  unfold stMeasure loopFuel
  have h1 : (initState cfg).pendingTypes.length = 1 := rfl
  omega

/-! ### The final state: recorded declarations are exactly the
reachable non-standard-library references -/

theorem processed_of_key {world : World} {root : TypeRef} {st : RState}
    (hInv : Inv world root st) (hnil : st.pendingTypes = [])
    {tr : TypeRef} (hname : NameOk tr.typeName)
    (hk : KeyInState st (trKey tr)) : tr ∈ st.processedTypes := by
  rcases hk with hk | hk
  · rw [hnil] at hk
    simp at hk
  · obtain ⟨q, hq, he⟩ := List.mem_map.1 hk
    have hqt : q = tr := trKey_inj (hInv.procNames q hq) hname he
    rwa [hqt] at hq

theorem final_hasDecl_iff {world : World} {root : TypeRef} {st : RState}
    (hwf : WFWorld world root) (hInv : Inv world root st)
    (hnil : st.pendingTypes = [])
    (hroot : KeyInState st (trKey root)) (tr : TypeRef) :
    hasDeclB st tr = true ↔
      (ReachableRun world root tr ∧ isStdlib tr.packagePath = false) := by
  constructor
  · intro h
    unfold hasDeclB at h
    cases hc : assocFind st.packages tr.packagePath with
    | none => simp [hc] at h
    | some pi =>
      simp only [hc] at h
      cases hf : pi.decls.find? (fun d => d.1 == tr.typeName) with
      | none => rw [hf] at h; simp at h
      | some d =>
        have hd1 : d.1 = tr.typeName := by
          simpa [beq_iff_eq] using List.find?_some hf
        have hdm : d ∈ pi.decls := List.mem_of_find?_eq_some hf
        obtain ⟨src, hw, hse⟩ := hInv.pkg.pkgStatic _ _ hc
        have hds := hInv.pkg.declsSrc _ _ hc src hw d hdm
        have hno : NameOk tr.typeName := by
          rw [← hd1]
          exact hwf.declOk _ _ hw d hds
        have hkey := hInv.declProc _ _ hc d hdm
        have hkey' : trKey tr ∈ st.processedTypes.map trKey := by
          have he : (⟨tr.packagePath, d.1⟩ : TypeRef) = tr := by
            rw [hd1]
          rwa [he] at hkey
        obtain ⟨q, hq, hqe⟩ := List.mem_map.1 hkey'
        have hqt : q = tr := trKey_inj (hInv.procNames q hq) hno hqe
        subst hqt
        exact ⟨hInv.procReach q hq, hInv.pkg.pkgNonStd _ _ hc⟩
  · rintro ⟨hre, hstd⟩
    have hkey : ∀ q, ReachableRun world root q → KeyInState st (trKey q) := by
      intro q hq
      induction hq with
      | refl => exact hroot
      | tail hab hbc ih =>
        exact hInv.procClosed _
          (processed_of_key hInv hnil (reachable_nameOk hwf hab) ih)
          hbc.1 _ hbc.2
    exact hInv.procDecl tr
      (processed_of_key hInv hnil (reachable_nameOk hwf hre) (hkey tr hre))
      hstd

theorem runLoop_correct {world : World} {cfg : RConfig}
    (hwf : WFWorld world (rootRef cfg))
    (hres : ResolvesAll world (rootRef cfg)) :
    ∃ st', runLoop world (loopFuel world (rootRef cfg)) (initState cfg)
        = .ok st' ∧ Inv world (rootRef cfg) st' ∧
      ∀ tr, hasDeclB st' tr = true ↔
        (ReachableRun world (rootRef cfg) tr ∧
          isStdlib tr.packagePath = false) := by
  obtain ⟨st', hrun, hInv', hnil, hkeys, _⟩ :=
    runLoop_props hwf hres (loopFuel world (rootRef cfg)) (initState cfg)
      (initInv hwf) stMeasure_init_lt
  have hroot : KeyInState st' (trKey (rootRef cfg)) := by
    refine hkeys _ (Or.inl ?_)
    simp [initState]
  exact ⟨st', hrun, hInv',
    fun tr => final_hasDecl_iff hwf hInv' hnil hroot tr⟩

/-! ### Specification edges versus driver edges -/

theorem reachableRun_to_spec {world : World} {root tr : TypeRef}
    (h : ReachableRun world root tr) : ReachableSpec world root tr :=
  Relation.ReflTransGen.mono (fun _ _ he => he.2) h

theorem reachableSpec_to_run {world : World} {root tr : TypeRef}
    (hcl : StdlibClosed world) (h : ReachableSpec world root tr) :
    isStdlib tr.packagePath = false → ReachableRun world root tr := by
  induction h with
  | refl => intro _; exact Relation.ReflTransGen.refl
  | tail hab hbc ih =>
    rename_i b c
    intro hstd
    cases hq : isStdlib b.packagePath with
    | false => exact Relation.ReflTransGen.tail (ih hq) ⟨hq, hbc⟩
    | true =>
      have hct := hcl b c hbc hq
      rw [hct] at hstd
      simp at hstd

/-! ### Declaration multiplicity -/

theorem declCount_one_of_hasDecl {world : World} {root : TypeRef}
    {st : RState} (hInv : Inv world root st) {tr : TypeRef}
    (h : hasDeclB st tr = true) : declCount st tr = 1 := by
  unfold hasDeclB at h
  unfold declCount
  cases hc : assocFind st.packages tr.packagePath with
  | none => simp [hc] at h
  | some pi =>
    simp only [hc] at h ⊢
    cases hf : pi.decls.find? (fun d => d.1 == tr.typeName) with
    | none => rw [hf] at h; simp at h
    | some d =>
      have hd1 : d.1 = tr.typeName := by
        simpa [beq_iff_eq] using List.find?_some hf
      have hdm : d ∈ pi.decls := List.mem_of_find?_eq_some hf
      have hnd := hInv.pkg.declsNodup _ _ hc
      have hmem : tr.typeName ∈ pi.decls.map (·.1) := by
        rw [← hd1]
        exact List.mem_map_of_mem _ hdm
      exact List.count_eq_one_of_mem hnd hmem

/-! ### Discharging the world hypotheses by computation -/

theorem nameOkB_ok {n : String} (h : nameOkB n = true) : NameOk n := by
  intro hc
  have ht : n.data.any (fun c => c == '.') = true :=
    List.any_eq_true.2 ⟨'.', hc, by simp⟩
  unfold nameOkB at h
  rw [ht] at h
  simp at h

theorem evNameOkB_ok {ev : RefEvent} (h : evNameOkB ev = true) :
    eventNameOk ev := by
  cases ev with
  | localRef n => trivial
  | selRef x sel => exact nameOkB_ok h

theorem wfWorld_of_check {world : World} {root : TypeRef}
    (hroot : nameOkB root.typeName = true)
    (hck : worldNamesOkB world = true) : WFWorld world root := by
  refine ⟨nameOkB_ok hroot, ?_, ?_⟩
  · intro p src h d hd
    have h1 := List.all_eq_true.1 hck _ (assocFind_mem h)
    have h2 := List.all_eq_true.1 h1 d hd
    have h3 : nameOkB d.1 = true ∧ (exprEvents d.2).all evNameOkB = true := by
      simpa using h2
    exact nameOkB_ok h3.1
  · intro p src h d hd ev hev
    have h1 := List.all_eq_true.1 hck _ (assocFind_mem h)
    have h2 := List.all_eq_true.1 h1 d hd
    have h3 : nameOkB d.1 = true ∧ (exprEvents d.2).all evNameOkB = true := by
      simpa using h2
    exact evNameOkB_ok (List.all_eq_true.1 h3.2 ev hev)

theorem stdlibClosed_of_check {world : World}
    (h : nonStdB world = true) : StdlibClosed world := by
  intro tr tr' hedge hstd
  unfold SpecEdge succRefs at hedge
  cases hw : assocFind world tr.packagePath with
  | none =>
    simp only [hw] at hedge
    simp at hedge
  | some src =>
    have hx := List.all_eq_true.1 h _ (assocFind_mem hw)
    simp only [Bool.not_eq_true'] at hx
    rw [hx] at hstd
    simp at hstd

theorem reachable_mem_closed {world : World} {root : TypeRef}
    {S : List TypeRef} (hroot : root ∈ S)
    (hcl : closedRefsB world S = true) :
    ∀ tr, ReachableRun world root tr → tr ∈ S := by
  intro tr h
  induction h with
  | refl => exact hroot
  | tail hab hbc ih =>
    have h1 := List.all_eq_true.1 hcl _ ih
    have h2 := List.all_eq_true.1 h1 _ hbc.2
    simpa using h2

theorem resolvesAll_of_check (S : List TypeRef) {world : World}
    {root : TypeRef} (hroot : root ∈ S)
    (hcl : closedRefsB world S = true)
    (hres : resolvesAllB world S = true) : ResolvesAll world root := by
  intro tr hre hstd
  have hm := reachable_mem_closed hroot hcl tr hre
  have hx := List.all_eq_true.1 hres _ hm
  simp only [hstd, Bool.false_or] at hx
  cases hw : assocFind world tr.packagePath with
  | none =>
    simp only [hw] at hx
    simp at hx
  | some src =>
    simp only [hw] at hx
    exact ⟨src, rfl, hx⟩

theorem acyclic_of_check {world : World} (h : noEdgesB world = true) :
    Acyclic world := by
  have hne : ∀ a b : TypeRef, ¬ SpecEdge world a b := by
    intro a b hedge
    unfold SpecEdge succRefs at hedge
    cases hw : assocFind world a.packagePath with
    | none =>
      simp only [hw] at hedge
      simp at hedge
    | some src =>
      simp only [hw] at hedge
      cases hd : declExprOf src a.typeName with
      | none =>
        simp only [hd] at hedge
        simp at hedge
      | some e =>
        simp only [hd] at hedge
        have h1 := List.all_eq_true.1 h _ (assocFind_mem hw)
        have h3 := List.all_eq_true.1 h1 _ (declExprOf_mem hd)
        have h4 : ((exprEvents e).filterMap
            (eventRef (srcWalkEnv a.packagePath src))) = [] := by
          simpa using h3
        rw [h4] at hedge
        simp at hedge
  intro tr htg
  cases htg with
  | single hedge => exact hne _ _ hedge
  | tail hab hedge => exact hne _ _ hedge

/-! ### A failing extraction -/

theorem extractType_notFound {world : World} {st : RState} {tr : TypeRef}
    {src : SrcPackage}
    (h0 : assocFind st.packages tr.packagePath = none)
    (hsrc : assocFind world tr.packagePath = some src)
    (hfind : src.typeDecls.find? (fun d => d.1 == tr.typeName) = none) :
    extractType world st tr =
      .error (.typeNotFound tr.typeName tr.packagePath) := by
  unfold extractType loadPackageInfo
  simp only [h0, hsrc]
  have hmk : (mkPkgInfo src).typeDecls = src.typeDecls := rfl
  simp only [hmk, hfind]

/-! ### The concrete worlds satisfy the hypotheses -/

theorem wf_worldLeaf : WFWorld worldLeaf (rootRef cfgLeaf) :=
  wfWorld_of_check (by decide) (by decide)

theorem res_worldLeaf : ResolvesAll worldLeaf (rootRef cfgLeaf) :=
  resolvesAll_of_check [rootRef cfgLeaf] (by decide) (by decide) (by decide)

theorem wf_worldCycle : WFWorld worldCycle (rootRef cfgCycle) :=
  wfWorld_of_check (by decide) (by decide)

theorem res_worldCycle : ResolvesAll worldCycle (rootRef cfgCycle) :=
  resolvesAll_of_check
    [(⟨"example.com/a", "A"⟩ : TypeRef), (⟨"example.com/a", "B"⟩ : TypeRef)]
    (by decide) (by decide) (by decide)

theorem wf_worldSelfRef : WFWorld worldSelfRef (rootRef cfgSelfRef) :=
  wfWorld_of_check (by decide) (by decide)

theorem wf_worldCross : WFWorld worldCross (rootRef cfgCross) :=
  wfWorld_of_check (by decide) (by decide)

theorem res_worldCross : ResolvesAll worldCross (rootRef cfgCross) :=
  resolvesAll_of_check
    [(⟨"example.com/a", "T"⟩ : TypeRef), (⟨"example.com/b", "U"⟩ : TypeRef)]
    (by decide) (by decide) (by decide)

/-! ## The claims -/

/-- C1: for a well-formed, fully resolvable, stdlib-closed and acyclic
world, the completed run records a declaration for exactly the
references transitively reachable from the requested root along type
references, minus every reference in a standard-library package (a
package path with no '.'). -/
theorem claim1_closure_exact {world : World} {cfg : RConfig}
    (hwf : WFWorld world (rootRef cfg))
    (hres : ResolvesAll world (rootRef cfg))
    (hcl : StdlibClosed world) (hacyc : Acyclic world) :
    ∃ st', runLoop world (loopFuel world (rootRef cfg)) (initState cfg)
        = .ok st' ∧
      ∀ tr, hasDeclB st' tr = true ↔
        (ReachableSpec world (rootRef cfg) tr ∧
          isStdlib tr.packagePath = false) := by
  obtain ⟨st', hrun, _, hiff⟩ := runLoop_correct hwf hres
  refine ⟨st', hrun, fun tr => ?_⟩
  rw [hiff tr]
  constructor
  · rintro ⟨hre, hstd⟩
    exact ⟨reachableRun_to_spec hre, hstd⟩
  · rintro ⟨hre, hstd⟩
    exact ⟨reachableSpec_to_run hcl hre hstd, hstd⟩

/-- C1 witness: the hypotheses hold of the one-package leaf world, and
the conclusion follows by the claim theorem. -/
theorem claim1_closure_exact_witness :
    ∃ st', runLoop worldLeaf (loopFuel worldLeaf (rootRef cfgLeaf))
        (initState cfgLeaf) = .ok st' ∧
      ∀ tr, hasDeclB st' tr = true ↔
        (ReachableSpec worldLeaf (rootRef cfgLeaf) tr ∧
          isStdlib tr.packagePath = false) :=
  claim1_closure_exact wf_worldLeaf res_worldLeaf
    (stdlibClosed_of_check (by decide)) (acyclic_of_check (by decide))

/-- C2: when the requested root references B and B references the root
back (a two-type cycle of non-standard-library types), the work-list
loop still terminates with success, and each of the two types is
recorded exactly once in its package's declaration list. -/
theorem claim2_cycle_once {world : World} {cfg : RConfig} {B : TypeRef}
    (hwf : WFWorld world (rootRef cfg))
    (hres : ResolvesAll world (rootRef cfg))
    (hA : isStdlib (rootRef cfg).packagePath = false)
    (hB : isStdlib B.packagePath = false)
    (hAB : B ∈ succRefs world (rootRef cfg))
    (hBA : rootRef cfg ∈ succRefs world B) :
    ∃ st', runLoop world (loopFuel world (rootRef cfg)) (initState cfg)
        = .ok st' ∧
      declCount st' (rootRef cfg) = 1 ∧ declCount st' B = 1 := by
  obtain ⟨st', hrun, hInv', hiff⟩ := runLoop_correct hwf hres
  have hAd : hasDeclB st' (rootRef cfg) = true :=
    (hiff _).2 ⟨Relation.ReflTransGen.refl, hA⟩
  have hBd : hasDeclB st' B = true :=
    (hiff _).2 ⟨Relation.ReflTransGen.single ⟨hA, hAB⟩, hB⟩
  exact ⟨st', hrun, declCount_one_of_hasDecl hInv' hAd,
    declCount_one_of_hasDecl hInv' hBd⟩

/-- C2 witness: the cyclic world A ↔ B, with the claim theorem applied
at its root. -/
theorem claim2_cycle_once_witness :
    ∃ st', runLoop worldCycle (loopFuel worldCycle (rootRef cfgCycle))
        (initState cfgCycle) = .ok st' ∧
      declCount st' (rootRef cfgCycle) = 1 ∧
      declCount st' (⟨"example.com/a", "B"⟩ : TypeRef) = 1 :=
  claim2_cycle_once wf_worldCycle res_worldCycle
    (by decide) (by decide) (by decide) (by decide)

/-- C3: requesting a type name absent from its stated
non-standard-library package makes the whole run return the
type-not-found error, and every effect the run performed is a go.mod
save, never an output file or module manifest. -/
theorem claim3_missing_type_aborts {world : World} {gm : GoModEnv}
    {cfg : RConfig} {src : SrcPackage} {fuel : Nat}
    (hstd : isStdlib cfg.packagePath = false)
    (hsrc : assocFind world cfg.packagePath = some src)
    (hmiss : declExprOf src cfg.typeName = none) (hf : 0 < fuel) :
    (rewriteRecursive world gm cfg fuel).1
        = .error (.typeNotFound cfg.typeName cfg.packagePath) ∧
    ∀ e ∈ (rewriteRecursive world gm cfg fuel).2,
      isOutputEffect e = false := by
  have hfind : src.typeDecls.find? (fun d => d.1 == cfg.typeName) = none := by
    unfold declExprOf at hmiss
    cases hff : src.typeDecls.find? (fun d => d.1 == cfg.typeName) with
    | none => rfl
    | some d => rw [hff] at hmiss; simp at hmiss
  have h0 : assocFind
      ({ initState cfg with pendingTypes := ([] : List TypeRef) } : RState).packages
      (rootRef cfg).packagePath = none := rfl
  have hex := extractType_notFound h0 hsrc hfind
  have hstep : driverStep world (initState cfg)
      = .fail (.typeNotFound cfg.typeName cfg.packagePath) := by
    unfold driverStep
    simp only [show (initState cfg).pendingTypes = [rootRef cfg] from rfl,
      show trKeyMem (initState cfg).processedTypes (rootRef cfg) = false from
        rfl,
      show isStdlib (rootRef cfg).packagePath = isStdlib cfg.packagePath from
        rfl,
      hstd, Bool.false_eq_true, if_false]
    rw [hex]
    rfl
  have hrl : runLoop world fuel (initState cfg)
      = .error (.typeNotFound cfg.typeName cfg.packagePath) := by
    cases fuel with
    | zero => cases hf
    | succ n => simp [runLoop, hstep]
  constructor
  · cases gm with
    | notFound => simp [rewriteRecursive, hrl]
    | parseFailed => simp [rewriteRecursive, hrl]
    | parsed reps => simp [rewriteRecursive, hrl]
  · intro e he
    cases gm with
    | notFound => simp [rewriteRecursive, hrl] at he
    | parseFailed => simp [rewriteRecursive, hrl] at he
    | parsed reps =>
      simp only [rewriteRecursive, hrl] at he
      by_cases hr : 0 < reps.length
      · simp [hr] at he
        subst he
        rfl
      · simp [hr] at he

/-- C3 witness: requesting the absent name Missing from the leaf world,
with a go.mod whose replace list is nonempty. -/
theorem claim3_missing_type_witness :
    (rewriteRecursive worldLeaf (.parsed [("example.com/old", "../old")])
        cfgMissing 2).1
      = .error (.typeNotFound "Missing" "example.com/a") ∧
    ∀ e ∈ (rewriteRecursive worldLeaf
        (.parsed [("example.com/old", "../old")]) cfgMissing 2).2,
      isOutputEffect e = false :=
  claim3_missing_type_aborts (by decide) rfl rfl (by decide)

/-- C4 counterexample: on the self-referential world, one driver step
leaves the popped reference in the processed-set and back in the
pending queue at once, refuting the claimed queue/processed-set
disjointness. -/
theorem claim4_counterexample : selfRefDualCheck = true := by decide

/-- C4 amended: after any driver step from an invariant state, the
pending queue still holds no duplicate references, and a reference that
is in the queue and the processed-set at once already has its
declaration recorded (so the overlap is harmless: the re-queued
reference is skipped when popped). -/
theorem claim4_amended {world : World} {root : TypeRef} {st st' : RState}
    (hwf : WFWorld world root) (hInv : Inv world root st)
    (hstep : driverStep world st = .next st') :
    (st'.pendingTypes.map trKey).Nodup ∧
    ∀ tr ∈ st'.pendingTypes, trKeyMem st'.processedTypes tr = true →
      hasDeclB st' tr = true :=
  ⟨(driverStep_next_props hwf hInv hstep).1.pendNodup,
    (driverStep_next_props hwf hInv hstep).1.pendDual⟩

/-- C4 amended witness: the step of the self-referential world that
produces the queue/processed overlap still satisfies the amended
invariant. -/
theorem claim4_amended_witness :
    ∃ st', driverStep worldSelfRef (initState cfgSelfRef) = .next st' ∧
      ((st'.pendingTypes.map trKey).Nodup ∧
        ∀ tr ∈ st'.pendingTypes, trKeyMem st'.processedTypes tr = true →
          hasDeclB st' tr = true) := by
  refine ⟨_, rfl, claim4_amended wf_worldSelfRef (initInv wf_worldSelfRef) rfl⟩

/-- C5 counterexample: extracting T from the sibling world records only
T's declaration and leaves the same-package sibling S queued, not
synchronously collected, refuting the claimed immediate lookup. -/
theorem claim5_counterexample : siblingDeferredCheck = true := by decide

/-- C5 amended: one extraction records exactly the popped reference's
declaration — recorded declarations change by that one key only — and
every reference the walk discovers, same-package references included,
is appended to the pending queue for later iterations. -/
theorem claim5_amended {world : World} {st : RState} {tr : TypeRef}
    {st₂ : RState} (hok : extractType world st tr = .ok st₂) :
    (∀ q, hasDeclB st₂ q = (hasDeclB st q || decide (q = tr))) ∧
    ∃ extra, st₂.pendingTypes = st.pendingTypes ++ extra :=
  ⟨fun q => extractType_hasDecl hok q, extractType_pending_mono hok⟩

/-- C5 amended witness: the sibling-world extraction, via the amended
theorem. -/
theorem claim5_amended_witness :
    extractType worldSibling (initState cfgSibling) (rootRef cfgSibling)
        = .ok (extractResult worldSibling (initState cfgSibling)
            (rootRef cfgSibling)) ∧
      (∀ q, hasDeclB (extractResult worldSibling (initState cfgSibling)
            (rootRef cfgSibling)) q =
          (hasDeclB (initState cfgSibling) q ||
            decide (q = rootRef cfgSibling))) ∧
      ∃ extra, (extractResult worldSibling (initState cfgSibling)
            (rootRef cfgSibling)).pendingTypes =
          (initState cfgSibling).pendingTypes ++ extra := by
  have hok : extractType worldSibling (initState cfgSibling)
      (rootRef cfgSibling) = .ok (extractResult worldSibling
        (initState cfgSibling) (rootRef cfgSibling)) := rfl
  obtain ⟨h1, h2⟩ := claim5_amended hok
  exact ⟨hok, h1, h2⟩

/-- C6 counterexample: an explicit alias on a two-segment path matches
the claim's wording of the heuristic, yet the code records it in both
of the import maps — the code's detector also requires at least three
path segments. -/
theorem claim6_counterexample : mangledTwoSegmentCheck = true := by decide

/-- C6 amended: under the code's actual heuristic (which only fires on
paths of at least three segments), a matching explicit alias is
discarded entirely — processing that import leaves both maps unchanged —
and when a mangled and a genuine alias are both declared for the same
path, only the genuine alias ends up recorded, in both maps. -/
theorem claim6_amended {m : ImportMaps} {path almang algen : String}
    (hm : isMangledAlias path almang = true)
    (hg : isMangledAlias path algen = false) :
    processImportSpec m ⟨some almang, path⟩ = m ∧
    collectSourceImports [⟨some almang, path⟩, ⟨some algen, path⟩] =
      ⟨[(path, [algen])], [(algen, path)]⟩ := by
  constructor
  · unfold processImportSpec
    simp [hm]
  · unfold collectSourceImports
    simp only [List.foldl_cons, List.foldl_nil]
    rw [show processImportSpec ⟨[], []⟩ ⟨some almang, path⟩
        = (⟨[], []⟩ : ImportMaps) from by unfold processImportSpec; simp [hm]]
    unfold processImportSpec
    simp only [hg, Bool.false_eq_true, if_false]
    unfold recordImport
    simp [assocFind, assocSet]

/-- C6 amended witness: a Kubernetes-style mangled alias beside the
genuine alias metav1. -/
theorem claim6_amended_witness :
    processImportSpec ⟨[("x/y", ["y"])], [("y", "x/y")]⟩
        ⟨some "apimachinery_pkg_apis_meta_v1",
          "k8s.io/apimachinery/pkg/apis/meta/v1"⟩ =
      (⟨[("x/y", ["y"])], [("y", "x/y")]⟩ : ImportMaps) ∧
    collectSourceImports
        [⟨some "apimachinery_pkg_apis_meta_v1",
           "k8s.io/apimachinery/pkg/apis/meta/v1"⟩,
         ⟨some "metav1", "k8s.io/apimachinery/pkg/apis/meta/v1"⟩] =
      ⟨[("k8s.io/apimachinery/pkg/apis/meta/v1", ["metav1"])],
       [("metav1", "k8s.io/apimachinery/pkg/apis/meta/v1")]⟩ :=
  claim6_amended (by decide) (by decide)

/-- C7: in a completed run, every import path emitted into a generated
file is either standard-library or names a package record that holds at
least one extracted declaration; imports of declaration-less packages
are dropped. -/
theorem claim7_dangling_imports_pruned {world : World} {cfg : RConfig}
    (hwf : WFWorld world (rootRef cfg))
    (hres : ResolvesAll world (rootRef cfg)) :
    ∃ st', runLoop world (loopFuel world (rootRef cfg)) (initState cfg)
        = .ok st' ∧
      ∀ f ∈ generateOutputCanonical cfg st',
        ∀ path ∈ fileImportPaths f,
          isStdlib path = true ∨
            ∃ pi, assocFind st'.packages path = some pi ∧
              pi.decls ≠ [] := by
  obtain ⟨st', hrun, hInv', _⟩ := runLoop_correct hwf hres
  refine ⟨st', hrun, ?_⟩
  intro f hf path hp
  unfold generateOutputCanonical at hf
  obtain ⟨x, hx, hxf⟩ := List.mem_filterMap.1 hf
  split at hxf
  · cases hxf
  · have hfe : f = emitPackageFile cfg (st'.packages.map (·.1)) x.1 x.2
        (x.2.imports.map (·.1)) (x.2.decls.map (·.1)) :=
      (Option.some.inj hxf).symm
    subst hfe
    simp only [fileImportPaths, emitPackageFile] at hp
    obtain ⟨y, hy, hye⟩ := List.mem_map.1 hp
    obtain ⟨z, hzm0, hze⟩ := List.mem_filterMap.1 hy
    cases hfz : assocFind x.2.imports z with
    | none =>
      simp only [hfz] at hze
      exact Option.noConfusion hze
    | some nm =>
      simp only [hfz] at hze
      split at hze
      · next hcnd =>
        obtain ⟨w, hw⟩ : ∃ w, (z, w) = y := ⟨_, Option.some.inj hze⟩
        subst hye
        rw [← hw]
        show isStdlib z = true ∨
          ∃ pi, assocFind st'.packages z = some pi ∧ pi.decls ≠ []
        rw [Bool.or_eq_true] at hcnd
        rcases hcnd with hc1 | hc2
        · right
          have hzm : z ∈ st'.packages.map (·.1) := by simpa using hc1
          obtain ⟨pi, hpi⟩ :=
            Option.isSome_iff_exists.1 (assocFind_isSome_iff.2 hzm)
          exact ⟨pi, hpi, hInv'.pkg.pkgDecls _ _ hpi⟩
        · exact Or.inl hc2
      · exact Option.noConfusion hze

/-- C7 witness: the two-package cross-module world. -/
theorem claim7_dangling_imports_witness :
    ∃ st', runLoop worldCross (loopFuel worldCross (rootRef cfgCross))
        (initState cfgCross) = .ok st' ∧
      ∀ f ∈ generateOutputCanonical cfgCross st',
        ∀ path ∈ fileImportPaths f,
          isStdlib path = true ∨
            ∃ pi, assocFind st'.packages path = some pi ∧
              pi.decls ≠ [] :=
  claim7_dangling_imports_pruned wf_worldCross res_worldCross

/-- C8: a popped reference whose package path contains no '.' is marked
processed and the loop continues on the remaining queue with the
package registry and module registry untouched: nothing is loaded,
extracted or emitted for it and the step cannot fail. -/
theorem claim8_stdlib_short_circuit {world : World} {st : RState}
    {tr : TypeRef} {rest : List TypeRef}
    (hp : st.pendingTypes = tr :: rest)
    (hdup : trKeyMem st.processedTypes tr = false)
    (hstd : isStdlib tr.packagePath = true) :
    driverStep world st =
      .next { st with pendingTypes := rest, processedTypes := st.processedTypes ++ [tr] } := by
  unfold driverStep
  simp only [hp, hdup, hstd, Bool.false_eq_true, if_false, if_true]

/-- C8 witness: a queued fmt.Stringer reference is skipped with no
package ever loaded. -/
theorem claim8_stdlib_short_circuit_witness :
    driverStep worldLeaf
      { packages := [], pendingTypes := [(⟨"fmt", "Stringer"⟩ : TypeRef)],
        processedTypes := [], modules := [] } =
      .next { packages := [], pendingTypes := [],
              processedTypes := [(⟨"fmt", "Stringer"⟩ : TypeRef)],
              modules := [] } :=
  claim8_stdlib_short_circuit rfl (by decide) (by decide)

/-- C9 counterexample: one completed run, two legal Go map iteration
orders over the recorded declaration map: the two emissions list the
file's declarations in different orders, so re-running the extraction
need not reproduce a byte-identical file. -/
theorem claim9_counterexample : emitOrderCheck = true := by decide

/-- C9 amended: emission is deterministic up to map iteration order —
for any two iteration orders that are permutations of each other, the
emitted files hold the same header and permutations of the same import
paths and declaration names. -/
theorem claim9_amended {cfg : RConfig} {dom : List String} {p : String}
    {pi : PkgInfo} {o₁ o₂ q₁ q₂ : List String}
    (hoPerm : o₁.Perm o₂) (hqPerm : q₁.Perm q₂) :
    (fileImportPaths (emitPackageFile cfg dom p pi o₁ q₁)).Perm
        (fileImportPaths (emitPackageFile cfg dom p pi o₂ q₂)) ∧
    (fileDeclNames (emitPackageFile cfg dom p pi o₁ q₁)).Perm
        (fileDeclNames (emitPackageFile cfg dom p pi o₂ q₂)) ∧
    (emitPackageFile cfg dom p pi o₁ q₁).header =
      (emitPackageFile cfg dom p pi o₂ q₂).header := by
  refine ⟨?_, ?_, rfl⟩
  · exact (hoPerm.filterMap _).map _
  · exact (hqPerm.filterMap _).map _

/-- C9 amended witness: the two iteration orders of the two-declaration
record give permuted declaration lists. -/
theorem claim9_amended_witness :
    (fileImportPaths (emitPackageFile cfgTwoDecls ["example.com/a"]
        "example.com/a" piTwoDecls [] ["A", "B"])).Perm
      (fileImportPaths (emitPackageFile cfgTwoDecls ["example.com/a"]
        "example.com/a" piTwoDecls [] ["B", "A"])) ∧
    (fileDeclNames (emitPackageFile cfgTwoDecls ["example.com/a"]
        "example.com/a" piTwoDecls [] ["A", "B"])).Perm
      (fileDeclNames (emitPackageFile cfgTwoDecls ["example.com/a"]
        "example.com/a" piTwoDecls [] ["B", "A"])) ∧
    (emitPackageFile cfgTwoDecls ["example.com/a"] "example.com/a"
        piTwoDecls [] ["A", "B"]).header =
      (emitPackageFile cfgTwoDecls ["example.com/a"] "example.com/a"
        piTwoDecls [] ["B", "A"]).header :=
  claim9_amended (by decide) (by decide)

/-- C10: with a parsed go.mod holding at least one replace directive,
the run saves the stripped manifest before the loop runs; if the loop
then fails, the error is surfaced and the stripped save is the run's
only effect — the manifest is not restored. -/
theorem claim10_strip_precedes_failure {world : World} {cfg : RConfig}
    {replaces : List (String × String)} {fuel : Nat} {e : RewriteError}
    (hne : 0 < replaces.length)
    (hfail : runLoop world fuel (initState cfg) = .error e) :
    rewriteRecursive world (.parsed replaces) cfg fuel =
      (.error e, [.goModSave []]) := by
  unfold rewriteRecursive
  rw [hfail]
  simp [hne]

/-- C10 witness: a failing run (missing type) after a replace-bearing
go.mod was parsed. -/
theorem claim10_strip_witness :
    rewriteRecursive worldLeaf (.parsed [("example.com/old", "../old")])
        cfgMissing 2 =
      (.error (.typeNotFound "Missing" "example.com/a"),
        [.goModSave []]) :=
  claim10_strip_precedes_failure (by decide) rfl

end PackageRewriter
